import Mathlib

/-!
# A verification of the `task` scheduler polyfill

This development gives a shallow embedding, in Lean, of the core of the
`task` repository: the intrusive doubly-linked task queue
(`src/polyfill/intrusive-task-queue.ts`), the scheduler
(`polyfill/scheduler.ts`), the task controller
(`polyfill/task-controller.ts`), and the prioritized-promise facade
(`src/Task.ts`).  Mutable linked structures are modelled by the list of
records read off from `headTask` via the `next` pointers; JS object
identity is modelled by numeric ids carried on the records; fallible
code returns `Except`.
-/

set_option maxRecDepth 4000

/-- Modelled from the spec: the file `scheduler-priorities.ts` (imported by
`scheduler.ts` but not part of the sources at hand) defines the priority
tags.  §6 of the specification: «Priority tags are exactly the three string
values, in descending priority order: "user-blocking", "user-visible",
"background"». -/
inductive TaskPriority where
  | userBlocking
  | userVisible
  | background
deriving DecidableEq, Repr

/-- Modelled from the spec: the array `TaskPriorityTypes` of
`scheduler-priorities.ts`, listing the tags in descending priority order
(spec §6). -/
def TaskPriorityTypes : List TaskPriority :=
  [.userBlocking, .userVisible, .background]

/-- A `SchedulerTask` record (`scheduler.ts`, class `SchedulerTask`),
restricted to the fields the queue and dispatch algorithms read.  `tid`
stands for the JS object identity of the record, `cb` for the identity of
its callback, `sig` for the identity of `options.signal` (if any).  The
private field `id` backs the `sequenceId` getter/setter pair; it is
`none` until the first assignment.  The `prev`/`next` link fields are
represented by the position of the record in the queue's list. -/
structure SchedulerTask where
  tid : Nat
  cb : Nat
  prio : Option TaskPriority
  sig : Option Nat
  delay : Nat
  isContinuation : Bool
  id : Option Nat
deriving DecidableEq, Repr

/-- The `sequenceId` getter (`scheduler.ts` lines 47-50):
`if (!this.id) throw new Error("sequenceId has not been set!"); return this.id;`
A JS value is falsy when it is `undefined` (here `none`) or `0`. -/
def SchedulerTask.sequenceId (t : SchedulerTask) : Except String Nat :=
  match t.id with
  | none => .error "sequenceId has not been set!"
  | some 0 => .error "sequenceId has not been set!"
  | some n => .ok n

/-- The stored sequence id read without the getter's falsiness check (the
value of the private `id` field, defaulting to 0). -/
def SchedulerTask.idv (t : SchedulerTask) : Nat := t.id.getD 0

/-- A stored id on which the `sequenceId` getter succeeds: set and nonzero. -/
def SchedulerTask.goodId (t : SchedulerTask) : Prop := ∃ n, t.id = some (n + 1)

instance (t : SchedulerTask) : Decidable t.goodId := by
  unfold SchedulerTask.goodId
  match h : t.id with
  | none => exact .isFalse (by simp)
  | some 0 => exact .isFalse (by simp)
  | some (n + 1) => exact .isTrue ⟨n, rfl⟩

/-- `IntrusiveTaskQueue.push` (`intrusive-task-queue.ts` lines 49-64),
together with the module-level counter `nextSequence` (line 25): the task
receives `nextSequence++` as its sequence id (through the setter, which
performs no check) and is appended at the tail.  The queue is the
head-to-tail list of its records. -/
def qpush (t : SchedulerTask) (q : List SchedulerTask) (c : Nat) :
    List SchedulerTask × Nat :=
  (q ++ [{ t with id := some c }], c + 1)

/-- `IntrusiveTaskQueue.takeNextTask` (lines 67-72): remove and return the
head, or `null`. -/
def takeNextTask (q : List SchedulerTask) :
    Option (SchedulerTask × List SchedulerTask) :=
  match q with
  | [] => none
  | t :: ts => some (t, ts)

/-- The fast-forward loop inside `IntrusiveTaskQueue.merge` (lines
105-111): advance the destination cursor while
`currentTask.sequenceId < taskToMove.sequenceId`.  Both sides of the
comparison go through the throwing `sequenceId` getter, the left operand
first, exactly as the JS condition evaluates. -/
def ffwd (t : SchedulerTask) : List SchedulerTask →
    Except String (List SchedulerTask × List SchedulerTask)
  | [] => .ok ([], [])
  | d :: ds => do
    let s ← d.sequenceId
    let k ← t.sequenceId
    if s < k then
      let (pre, post) ← ffwd t ds
      .ok (d :: pre, post)
    else
      .ok ([], d :: ds)

/-- The iteration of `IntrusiveTaskQueue.merge` (lines 91-115) over the
source queue.  State: `src` is the part of the source not yet visited,
`kept` the already-visited source records that the selector rejected (they
stay in the source queue, in order), `done` the destination records before
the cursor (`previousTask` is its last element), `rest` the destination
records from the cursor (`currentTask`) on, `c` the global `nextSequence`
counter.  A selected record is removed from the source and inserted
between `done ++ pre` and `post`; `insert` (lines 124-146) delegates to
`push` — which assigns a fresh sequence id — exactly when the insertion
point is the tail, i.e. when `post` is empty. -/
def mergeGo (sel : SchedulerTask → Bool) :
    List SchedulerTask → List SchedulerTask → List SchedulerTask →
    List SchedulerTask → Nat →
    Except String (List SchedulerTask × List SchedulerTask × Nat)
  | [], kept, done, rest, c => .ok (done ++ rest, kept, c)
  | t :: src, kept, done, rest, c =>
    if sel t then do
      let (pre, post) ← ffwd t rest
      match post with
      | [] => mergeGo sel src kept (done ++ pre ++ [{ t with id := some c }]) [] (c + 1)
      | _ => mergeGo sel src kept (done ++ pre ++ [t]) post c
    else
      mergeGo sel src (kept ++ [t]) done rest c

/-- `IntrusiveTaskQueue.merge` (lines 82-116) on a destination queue
`dest`, a source queue `src` and the global counter `c`.  Returns the new
destination, the new source and the new counter, or the error thrown by a
`sequenceId` read. -/
def mergeE (sel : SchedulerTask → Bool) (dest src : List SchedulerTask)
    (c : Nat) :
    Except String (List SchedulerTask × List SchedulerTask × Nat) :=
  mergeGo sel src [] [] dest c

/-- The fast-forward split expressed on raw stored ids (no getter): the
cursor stops at the first record whose stored id is not below `k`. -/
def ffwdP (k : Nat) (l : List SchedulerTask) :
    List SchedulerTask × List SchedulerTask :=
  (l.takeWhile (fun d => d.idv < k), l.dropWhile (fun d => d.idv < k))

/-- The merge iteration on raw stored ids (no getter). -/
def mergePGo (sel : SchedulerTask → Bool) :
    List SchedulerTask → List SchedulerTask → List SchedulerTask →
    List SchedulerTask → Nat →
    List SchedulerTask × List SchedulerTask × Nat
  | [], kept, done, rest, c => (done ++ rest, kept, c)
  | t :: src, kept, done, rest, c =>
    if sel t then
      match ffwdP t.idv rest with
      | (pre, []) => mergePGo sel src kept (done ++ pre ++ [{ t with id := some c }]) [] (c + 1)
      | (pre, post) => mergePGo sel src kept (done ++ pre ++ [t]) post c
    else
      mergePGo sel src (kept ++ [t]) done rest c

/-- Merge on raw stored ids. -/
def mergeP (sel : SchedulerTask → Bool) (dest src : List SchedulerTask)
    (c : Nat) : List SchedulerTask × List SchedulerTask × Nat :=
  mergePGo sel src [] [] dest c

-- ### Basic facts about the getter and the two merge versions

theorem exceptBindOk {α β ε : Type} (a : α) (f : α → Except ε β) :
    (Except.ok a >>= f : Except ε β) = f a := rfl

theorem sequenceId_of_goodId {t : SchedulerTask} (h : t.goodId) :
    t.sequenceId = .ok t.idv := by
  obtain ⟨n, hn⟩ := h
  simp [SchedulerTask.sequenceId, SchedulerTask.idv, hn]

theorem ffwd_eq_ffwdP {t : SchedulerTask} (ht : t.goodId) :
    ∀ {l : List SchedulerTask}, (∀ d ∈ l, d.goodId) →
    ffwd t l = .ok (ffwdP t.idv l)
  | [], _ => by simp [ffwd, ffwdP]
  | d :: ds, h => by
    have hd : d.goodId := h d (List.mem_cons_self d ds)
    have hds : ∀ x ∈ ds, x.goodId := fun x hx => h x (List.mem_cons_of_mem d hx)
    simp only [ffwd, sequenceId_of_goodId hd, sequenceId_of_goodId ht,
      exceptBindOk]
    by_cases hlt : d.idv < t.idv
    · simp only [hlt, if_true, if_pos]
      rw [ffwd_eq_ffwdP ht hds]
      simp [ffwdP, List.takeWhile, List.dropWhile, hlt, exceptBindOk]
    · simp [hlt, ffwdP, List.takeWhile, List.dropWhile]

theorem takeWhile_sublist_goodId {p : SchedulerTask → Bool}
    {l : List SchedulerTask} (h : ∀ d ∈ l, d.goodId) :
    ∀ d ∈ l.takeWhile p, d.goodId :=
  fun d hd => h d ((List.takeWhile_sublist p).mem hd)

theorem dropWhile_sublist_goodId {p : SchedulerTask → Bool}
    {l : List SchedulerTask} (h : ∀ d ∈ l, d.goodId) :
    ∀ d ∈ l.dropWhile p, d.goodId :=
  fun d hd => h d ((List.dropWhile_sublist p).mem hd)

/-- Under ids that the getter accepts (all set and nonzero, and a counter
that only hands out nonzero ids), the faithful `merge` does not throw and
agrees with the raw-id version. -/
theorem mergeGo_eq_mergePGo (sel : SchedulerTask → Bool) :
    ∀ (src kept done rest : List SchedulerTask) (c : Nat),
    (∀ t ∈ src, t.goodId) → (∀ t ∈ rest, t.goodId) → 0 < c →
    mergeGo sel src kept done rest c = .ok (mergePGo sel src kept done rest c)
  | [], kept, done, rest, c, _, _, _ => by simp [mergeGo, mergePGo]
  | t :: src, kept, done, rest, c, hsrc, hrest, hc => by
    have ht : t.goodId := hsrc t (List.mem_cons_self t src)
    have hsrc' : ∀ x ∈ src, x.goodId :=
      fun x hx => hsrc x (List.mem_cons_of_mem t hx)
    simp only [mergeGo, mergePGo]
    by_cases hsel : sel t
    · simp only [hsel, if_pos, ffwd_eq_ffwdP ht hrest, exceptBindOk]
      rcases hpost : ffwdP t.idv rest with ⟨pre, post⟩
      match post with
      | [] =>
        exact mergeGo_eq_mergePGo sel src kept
          (done ++ pre ++ [{ t with id := some c }]) [] (c + 1) hsrc'
          (by simp) (Nat.succ_le_succ (Nat.zero_le c))
      | d :: ds =>
        have hpost' : ∀ x ∈ d :: ds, x.goodId := by
          intro x hx
          have : x ∈ rest.dropWhile (fun d => d.idv < t.idv) := by
            have := congrArg Prod.snd hpost
            simp only [ffwdP] at this
            rw [← this] at hx
            exact hx
          exact dropWhile_sublist_goodId hrest x this
        exact mergeGo_eq_mergePGo sel src kept (done ++ pre ++ [t])
          (d :: ds) c hsrc' hpost' hc
    · simp only [hsel]
      exact mergeGo_eq_mergePGo sel src (kept ++ [t]) done rest c hsrc' hrest hc

theorem mergeE_eq_mergeP {sel : SchedulerTask → Bool}
    {dest src : List SchedulerTask} {c : Nat}
    (hsrc : ∀ t ∈ src, t.goodId) (hdest : ∀ t ∈ dest, t.goodId)
    (hc : 0 < c) :
    mergeE sel dest src c = .ok (mergeP sel dest src c) :=
  mergeGo_eq_mergePGo sel src [] [] dest c hsrc hdest hc

-- ### Helper lemmas on sorted insertion

theorem sorted_dropWhile_ge (k : Nat) :
    ∀ (l : List SchedulerTask),
    List.Pairwise (· < ·) (l.map SchedulerTask.idv) →
    ∀ b ∈ l.dropWhile (fun d => d.idv < k), k ≤ b.idv
  | [], _, b, hb => by simp [List.dropWhile] at hb
  | d :: ds, h, b, hb => by
    rw [List.map_cons, List.pairwise_cons] at h
    by_cases hd : d.idv < k
    · rw [List.dropWhile_cons_of_pos (by simpa using hd)] at hb
      exact sorted_dropWhile_ge k ds h.2 b hb
    · rw [List.dropWhile_cons_of_neg (by simpa using hd)] at hb
      rcases List.mem_cons.mp hb with rfl | hb'
      · omega
      · have := h.1 b.idv (List.mem_map_of_mem SchedulerTask.idv hb')
        omega

theorem mem_takeWhile_lt {k : Nat} {l : List SchedulerTask} :
    ∀ a ∈ l.takeWhile (fun d => d.idv < k), a.idv < k := by
  intro a ha
  simpa using List.mem_takeWhile_imp ha

theorem pairwise_insert_between {l1 l2 : List Nat} {k : Nat}
    (h : List.Pairwise (· < ·) (l1 ++ l2))
    (h1 : ∀ a ∈ l1, a < k) (h2 : ∀ b ∈ l2, k < b) :
    List.Pairwise (· < ·) (l1 ++ k :: l2) := by
  rw [List.pairwise_append] at h ⊢
  refine ⟨h.1, ?_, ?_⟩
  · rw [List.pairwise_cons]
    exact ⟨h2, h.2.1⟩
  · intro a ha b hb
    rcases List.mem_cons.mp hb with rfl | hb'
    · exact h1 a ha
    · exact h.2.2 a ha b hb'

theorem pairwise_append_singleton {l : List Nat} {k : Nat}
    (h : List.Pairwise (· < ·) l) (hk : ∀ a ∈ l, a < k) :
    List.Pairwise (· < ·) (l ++ [k]) := by
  rw [List.pairwise_append]
  exact ⟨h, List.pairwise_singleton _ k, fun a ha b hb => by
    rcases List.mem_singleton.mp hb with rfl; exact hk a ha⟩

theorem perm_shift_mid (A P Q Y : List Nat) (a : Nat) :
    List.Perm (A ++ (P ++ (a :: (Q ++ Y)))) (A ++ (P ++ (Q ++ a :: Y))) :=
  List.Perm.append_left A (List.Perm.append_left P List.perm_middle.symm)

-- ### The main specification of the merge iteration

/-- Full characterisation of the merge iteration on raw ids, under the
queue invariants: the destination stays strictly increasing, the source
keeps exactly the rejected records, destination identities are exactly the
old ones plus the selected source identities, and every record of the new
destination is either an untouched old destination record or a transferred
source record whose stored id is preserved unless it was reassigned from
the counter (which only ever hands out values `≥ c`). -/
theorem mergePGo_spec (sel : SchedulerTask → Bool) :
    ∀ (src kept done rest : List SchedulerTask) (c : Nat),
    List.Pairwise (· < ·) ((done ++ rest).map SchedulerTask.idv) →
    List.Pairwise (· < ·) (src.map SchedulerTask.idv) →
    (rest ≠ [] → ∀ d ∈ done, ∀ s ∈ src, d.idv < s.idv) →
    (∀ x ∈ done ++ rest, x.idv < c) →
    (∀ s ∈ src, s.idv < c) →
    (∀ r ∈ rest, ∀ s ∈ src, r.idv ≠ s.idv) →
    (mergePGo sel src kept done rest c).2.1 =
      kept ++ src.filter (fun t => !sel t) ∧
    List.Pairwise (· < ·)
      ((mergePGo sel src kept done rest c).1.map SchedulerTask.idv) ∧
    List.Perm ((mergePGo sel src kept done rest c).1.map SchedulerTask.tid)
      ((done ++ rest).map SchedulerTask.tid ++
        (src.filter sel).map SchedulerTask.tid) ∧
    (∀ x ∈ (mergePGo sel src kept done rest c).1,
      x ∈ done ++ rest ∨
        ∃ s ∈ src, sel s ∧ x.tid = s.tid ∧ (x.idv = s.idv ∨ c ≤ x.idv)) ∧
    c ≤ (mergePGo sel src kept done rest c).2.2
  | [], kept, done, rest, c, hA, _, _, _, _, _ =>
    ⟨by simp [mergePGo], by simpa [mergePGo] using hA,
      by simp [mergePGo], fun x hx => Or.inl hx, Nat.le_refl c⟩
  | t :: src, kept, done, rest, c, hA, hB, hC, hD, hDs, hE => by
    have hBt : ∀ s ∈ src, t.idv < s.idv := by
      rw [List.map_cons, List.pairwise_cons] at hB
      intro s hs
      exact hB.1 s.idv (List.mem_map_of_mem SchedulerTask.idv hs)
    have hB' : List.Pairwise (· < ·) (src.map SchedulerTask.idv) := by
      rw [List.map_cons, List.pairwise_cons] at hB
      exact hB.2
    have hDs' : ∀ s ∈ src, s.idv < c :=
      fun s hs => hDs s (List.mem_cons_of_mem t hs)
    have hDt : t.idv < c := hDs t (List.mem_cons_self t src)
    by_cases hsel : sel t
    · rcases hp : rest.dropWhile (fun d => d.idv < t.idv) with _ | ⟨p, ps⟩
      · -- selected, insertion at the tail: `insert` delegates to `push`,
        -- which reassigns the sequence id from the counter
        have hpre : rest.takeWhile (fun d => d.idv < t.idv) = rest := by
          have h2 := List.takeWhile_append_dropWhile
            (fun d => decide (d.idv < t.idv)) rest
          rw [hp] at h2
          simpa using h2
        have hstep : mergePGo sel (t :: src) kept done rest c =
            mergePGo sel src kept
              (done ++ rest ++ [{ t with id := some c }]) [] (c + 1) := by
          simp only [mergePGo, hsel, if_pos, ffwdP, hp, hpre]
        have hidc : ({ t with id := some c } : SchedulerTask).idv = c := rfl
        have htidc : ({ t with id := some c } : SchedulerTask).tid = t.tid :=
          rfl
        have hA' : List.Pairwise (· < ·)
            ((done ++ rest ++ [{ t with id := some c }]).map
              SchedulerTask.idv) := by
          rw [List.map_append]
          refine pairwise_append_singleton (by simpa using hA) ?_
          intro a ha
          obtain ⟨x, hx, rfl⟩ := List.mem_map.mp ha
          simpa [hidc] using hD x hx
        obtain ⟨r1, r2, r3, r4, r5⟩ :=
          mergePGo_spec sel src kept
            (done ++ rest ++ [{ t with id := some c }]) [] (c + 1)
            (by simpa using hA') hB'
            (fun h => absurd rfl h)
            (by
              intro x hx
              simp only [List.append_nil, List.mem_append,
                List.mem_singleton] at hx
              rcases hx with hx | rfl
              · exact Nat.lt_succ_of_lt (hD x (List.mem_append.mpr hx))
              · simp [hidc])
            (fun s hs => Nat.lt_succ_of_lt (hDs' s hs))
            (by intro r hr; simp at hr)
        rw [hstep]
        refine ⟨?_, r2, ?_, ?_, ?_⟩
        · rw [r1, List.filter_cons_of_neg (by simp [hsel])]
        · refine r3.trans ?_
          rw [List.filter_cons_of_pos (by simp [hsel])]
          simp only [List.append_nil, List.map_append, List.map_cons,
            List.map_singleton, htidc, List.append_assoc, List.singleton_append]
          exact List.Perm.refl _
        · intro x hx
          rcases r4 x hx with hmem | ⟨s, hs, hsel', htid, hid⟩
          · simp only [List.append_nil, List.mem_append,
              List.mem_singleton] at hmem
            rcases hmem with hmem | rfl
            · exact Or.inl (List.mem_append.mpr hmem)
            · exact Or.inr ⟨t, List.mem_cons_self t src, hsel, htidc,
                Or.inr (by simp [hidc])⟩
          · exact Or.inr ⟨s, List.mem_cons_of_mem t hs, hsel', htid,
              hid.imp_right (fun h => Nat.le_of_succ_le h)⟩
        · exact Nat.le_of_succ_le r5
      · -- selected, insertion strictly before the tail: the record keeps
        -- its stored sequence id
        have hprepost : rest.takeWhile (fun d => d.idv < t.idv) ++ p :: ps =
            rest := by
          have h2 := List.takeWhile_append_dropWhile
            (fun d => decide (d.idv < t.idv)) rest
          rw [hp] at h2
          simpa using h2
        have hstep : mergePGo sel (t :: src) kept done rest c =
            mergePGo sel src kept
              (done ++ rest.takeWhile (fun d => d.idv < t.idv) ++ [t])
              (p :: ps) c := by
          simp only [mergePGo, hsel, if_pos, ffwdP, hp]
        have hrestne : rest ≠ [] := by
          intro h
          rw [h] at hp
          simp [List.dropWhile] at hp
        have hpre_lt : ∀ a ∈ rest.takeWhile (fun d => d.idv < t.idv),
            a.idv < t.idv := fun a ha => mem_takeWhile_lt a ha
        have hrest_sorted : List.Pairwise (· < ·)
            (rest.map SchedulerTask.idv) := by
          rw [List.map_append, List.pairwise_append] at hA
          exact hA.2.1
        have hpost_gt : ∀ b ∈ p :: ps, t.idv < b.idv := by
          intro b hb
          have hge : t.idv ≤ b.idv := by
            rw [← hp] at hb
            exact sorted_dropWhile_ge t.idv rest hrest_sorted b hb
          have hbrest : b ∈ rest := by
            rw [← hprepost]
            exact List.mem_append_right _ hb
          have hne : b.idv ≠ t.idv := hE b hbrest t (List.mem_cons_self t src)
          omega
        have hdone_lt : ∀ d ∈ done, d.idv < t.idv :=
          fun d hd => hC hrestne d hd t (List.mem_cons_self t src)
        have hA' : List.Pairwise (· < ·)
            (((done ++ rest.takeWhile (fun d => d.idv < t.idv) ++ [t]) ++
              p :: ps).map SchedulerTask.idv) := by
          have base : List.Pairwise (· < ·)
              ((done ++ rest.takeWhile (fun d => d.idv < t.idv)).map
                  SchedulerTask.idv ++
                (p :: ps).map SchedulerTask.idv) := by
            have hre : (done ++ rest.takeWhile (fun d => d.idv < t.idv)) ++
                p :: ps = done ++ rest := by
              rw [List.append_assoc, hprepost]
            rw [← List.map_append, hre]
            exact hA
          have ins := pairwise_insert_between base
            (by
              intro a ha
              obtain ⟨x, hx, rfl⟩ := List.mem_map.mp ha
              rcases List.mem_append.mp hx with hx | hx
              · exact hdone_lt x hx
              · exact hpre_lt x hx)
            (by
              intro b hb
              obtain ⟨x, hx, rfl⟩ := List.mem_map.mp hb
              exact hpost_gt x hx)
          simpa [List.map_append, List.append_assoc] using ins
        obtain ⟨r1, r2, r3, r4, r5⟩ :=
          mergePGo_spec sel src kept
            (done ++ rest.takeWhile (fun d => d.idv < t.idv) ++ [t])
            (p :: ps) c hA' hB'
            (by
              intro _ d hd s hs
              simp only [List.mem_append, List.mem_singleton] at hd
              rcases hd with (hd | hd) | rfl
              · exact Nat.lt_trans (hdone_lt d hd) (hBt s hs)
              · exact Nat.lt_trans (hpre_lt d hd) (hBt s hs)
              · exact hBt s hs)
            (by
              intro x hx
              simp only [List.mem_append, List.mem_singleton] at hx
              rcases hx with ((hx | hx) | rfl) | hx
              · exact hD x (List.mem_append_left rest hx)
              · refine hD x (List.mem_append_right done ?_)
                rw [← hprepost]
                exact List.mem_append_left _ hx
              · exact hDt
              · refine hD x (List.mem_append_right done ?_)
                rw [← hprepost]
                exact List.mem_append_right _ hx)
            hDs'
            (by
              intro r hr s hs
              have hrrest : r ∈ rest := by
                rw [← hprepost]
                exact List.mem_append_right _ hr
              exact hE r hrrest s (List.mem_cons_of_mem t hs))
        rw [hstep]
        refine ⟨?_, r2, ?_, ?_, r5⟩
        · rw [r1, List.filter_cons_of_neg (by simp [hsel])]
        · refine r3.trans ?_
          rw [List.filter_cons_of_pos (by simp [hsel])]
          have hR : (done ++ rest).map SchedulerTask.tid =
              done.map SchedulerTask.tid ++
                ((rest.takeWhile (fun d => d.idv < t.idv)).map
                    SchedulerTask.tid ++
                  (p :: ps).map SchedulerTask.tid) := by
            conv_lhs => rw [← hprepost]
            simp [List.map_append, List.append_assoc]
          rw [hR]
          simp only [List.map_append, List.map_cons, List.map_singleton,
            List.append_assoc, List.singleton_append, List.cons_append]
          exact perm_shift_mid (done.map SchedulerTask.tid)
            ((rest.takeWhile (fun d => d.idv < t.idv)).map SchedulerTask.tid)
            (p.tid :: ps.map SchedulerTask.tid)
            ((src.filter sel).map SchedulerTask.tid) t.tid
        · intro x hx
          rcases r4 x hx with hmem | ⟨s, hs, hsel', htid, hid⟩
          · simp only [List.mem_append, List.mem_singleton] at hmem
            rcases hmem with ((hx' | hx') | hxt) | hx'
            · exact Or.inl (List.mem_append_left rest hx')
            · refine Or.inl (List.mem_append_right done ?_)
              rw [← hprepost]
              exact List.mem_append_left _ hx'
            · exact Or.inr ⟨t, List.mem_cons_self t src, hsel, by rw [hxt],
                Or.inl (by rw [hxt])⟩
            · refine Or.inl (List.mem_append_right done ?_)
              rw [← hprepost]
              exact List.mem_append_right _ hx'
          · exact Or.inr ⟨s, List.mem_cons_of_mem t hs, hsel', htid, hid⟩
    · -- rejected: the record stays in the source queue
      have hselF : sel t = false := by
        revert hsel
        cases sel t <;> simp
      have hstep : mergePGo sel (t :: src) kept done rest c =
          mergePGo sel src (kept ++ [t]) done rest c := by
        simp only [mergePGo, hselF, Bool.false_eq_true, if_false]
      obtain ⟨r1, r2, r3, r4, r5⟩ :=
        mergePGo_spec sel src (kept ++ [t]) done rest c hA hB'
          (fun hne d hd s hs => hC hne d hd s (List.mem_cons_of_mem t hs))
          hD hDs'
          (fun r hr s hs => hE r hr s (List.mem_cons_of_mem t hs))
      rw [hstep]
      refine ⟨?_, r2, ?_, ?_, r5⟩
      · rw [r1, List.filter_cons_of_pos (by simp [hselF])]
        simp
      · rw [List.filter_cons_of_neg (by simp [hselF])]
        exact r3
      · intro x hx
        rcases r4 x hx with hmem | ⟨s, hs, hsel', htid, hid⟩
        · exact Or.inl hmem
        · exact Or.inr ⟨s, List.mem_cons_of_mem t hs, hsel', htid, hid⟩

-- ### Top-level merge correctness (claim C4)

/-- The corrected behaviour of `IntrusiveTaskQueue.merge`: exactly the
selected records are transferred (the source keeps exactly the rejected
ones; destination identities are the old ones plus the selected source
identities), sequence ids along the destination stay strictly increasing,
and a transferred record keeps its sequence id unless it was appended at
the destination's tail, where `insert` delegates to `push` and the id is
reassigned from the global counter (hence `c ≤` the new id). -/
theorem merge_characterisation (sel : SchedulerTask → Bool)
    (dest src : List SchedulerTask) (c : Nat)
    (hgd : ∀ x ∈ dest, x.goodId) (hgs : ∀ x ∈ src, x.goodId)
    (hc : 0 < c)
    (hsd : List.Pairwise (· < ·) (dest.map SchedulerTask.idv))
    (hss : List.Pairwise (· < ·) (src.map SchedulerTask.idv))
    (hdisj : ∀ d ∈ dest, ∀ s ∈ src, d.idv ≠ s.idv)
    (hdom : ∀ x ∈ dest, x.idv < c) (hdoms : ∀ s ∈ src, s.idv < c) :
    mergeE sel dest src c = .ok (mergeP sel dest src c) ∧
    (mergeP sel dest src c).2.1 = src.filter (fun t => !sel t) ∧
    List.Pairwise (· < ·)
      ((mergeP sel dest src c).1.map SchedulerTask.idv) ∧
    List.Perm ((mergeP sel dest src c).1.map SchedulerTask.tid)
      (dest.map SchedulerTask.tid ++
        (src.filter sel).map SchedulerTask.tid) ∧
    ∀ x ∈ (mergeP sel dest src c).1,
      x ∈ dest ∨
        ∃ s ∈ src, sel s ∧ x.tid = s.tid ∧ (x.idv = s.idv ∨ c ≤ x.idv) := by
  have hbridge : mergeE sel dest src c = .ok (mergeP sel dest src c) :=
    mergeE_eq_mergeP hgs hgd hc
  obtain ⟨r1, r2, r3, r4, _⟩ :=
    mergePGo_spec sel src [] [] dest c (by simpa using hsd) hss
      (fun _ d hd => absurd hd (List.not_mem_nil d))
      (by simpa using hdom) hdoms
      (fun r hr s hs => hdisj r hr s hs)
  exact ⟨hbridge, by simpa using r1, r2, by simpa using r3,
    fun x hx => (r4 x hx).imp_left (fun h => by simpa using h)⟩

deriving instance DecidableEq for Except

-- ### Claim C4

/-- A task with signal 5 and stored sequence id 1, merged into an empty
destination queue while the global counter is at 2. -/
def c4MovedTask : SchedulerTask :=
  { tid := 40, cb := 0, prio := none, sig := some 5, delay := 0,
    isContinuation := false, id := some 1 }

/-- The record `c4MovedTask` after the merge reassigned its id. -/
def c4MovedTaskAfter : SchedulerTask :=
  { tid := 40, cb := 0, prio := none, sig := some 5, delay := 0,
    isContinuation := false, id := some 2 }

/-- C4, counterexample: `merge` does not always preserve the sequence id of
a transferred record.  Transferring the single selected record (stored id
1) into an empty destination hits the insert-at-tail path, where `insert`
delegates to `push` and the record is reassigned the fresh id 2 from the
global counter — contradicting «no transferred record's sequence id
changes». -/
theorem merge_reassigns_id_at_tail :
    mergeE (fun t => decide (t.sig = some 5)) [] [c4MovedTask] 2 =
      .ok ([c4MovedTaskAfter], [], 3) ∧
    c4MovedTaskAfter.tid = c4MovedTask.tid ∧
    c4MovedTaskAfter.idv ≠ c4MovedTask.idv := by
  decide

/-- C4 (amended): for every `merge(source, selector)` call on queues whose
stored sequence ids are set, nonzero, strictly increasing, pairwise
distinct across the two queues and below the global counter: exactly the
source records satisfying the selector are transferred (the source keeps
exactly the rejected records and the destination identities afterwards are
precisely the old ones plus the selected ones — none duplicated or lost),
sequence ids along the destination remain strictly increasing, and every
transferred record keeps the sequence id assigned at its original enqueue
moment unless it is appended at the destination's tail, in which case
`insert` delegates to `push` and the record receives a fresh id `≥ c` from
the global counter. -/
theorem merge_exact_transfer_sorted (sel : SchedulerTask → Bool)
    (dest src : List SchedulerTask) (c : Nat)
    (hgd : ∀ x ∈ dest, x.goodId) (hgs : ∀ x ∈ src, x.goodId)
    (hc : 0 < c)
    (hsd : List.Pairwise (· < ·) (dest.map SchedulerTask.idv))
    (hss : List.Pairwise (· < ·) (src.map SchedulerTask.idv))
    (hdisj : ∀ d ∈ dest, ∀ s ∈ src, d.idv ≠ s.idv)
    (hdom : ∀ x ∈ dest, x.idv < c) (hdoms : ∀ s ∈ src, s.idv < c) :
    ∃ dest2 src2 c2,
      mergeE sel dest src c = .ok (dest2, src2, c2) ∧
      src2 = src.filter (fun t => !sel t) ∧
      List.Pairwise (· < ·) (dest2.map SchedulerTask.idv) ∧
      List.Perm (dest2.map SchedulerTask.tid)
        (dest.map SchedulerTask.tid ++
          (src.filter sel).map SchedulerTask.tid) ∧
      ∀ x ∈ dest2, x ∈ dest ∨
        ∃ s ∈ src, sel s ∧ x.tid = s.tid ∧ (x.idv = s.idv ∨ c ≤ x.idv) := by
  obtain ⟨h0, h1, h2, h3, h4⟩ :=
    merge_characterisation sel dest src c hgd hgs hc hsd hss hdisj hdom hdoms
  exact ⟨(mergeP sel dest src c).1, (mergeP sel dest src c).2.1,
    (mergeP sel dest src c).2.2, h0, h1, h2, h3, h4⟩

/-- Destination queue for the C4 witness. -/
def c4wDest : List SchedulerTask :=
  [{ tid := 10, cb := 0, prio := none, sig := none, delay := 0,
     isContinuation := false, id := some 1 }]

/-- Source queue for the C4 witness: one record selected by its signal,
one not. -/
def c4wSrc : List SchedulerTask :=
  [{ tid := 11, cb := 0, prio := none, sig := some 7, delay := 0,
     isContinuation := false, id := some 2 },
   { tid := 12, cb := 0, prio := none, sig := none, delay := 0,
     isContinuation := false, id := some 3 }]

/-- The C4 witness selector: records whose signal is signal 7. -/
def c4wSel : SchedulerTask → Bool := fun t => decide (t.sig = some 7)

/-- C4 witness: the amended merge theorem applied at a concrete input. -/
theorem merge_exact_transfer_sorted_witness :
    ∃ dest2 src2 c2,
      mergeE c4wSel c4wDest c4wSrc 4 = .ok (dest2, src2, c2) ∧
      src2 = c4wSrc.filter (fun t => !c4wSel t) ∧
      List.Pairwise (· < ·) (dest2.map SchedulerTask.idv) ∧
      List.Perm (dest2.map SchedulerTask.tid)
        (c4wDest.map SchedulerTask.tid ++
          (c4wSrc.filter c4wSel).map SchedulerTask.tid) ∧
      ∀ x ∈ dest2, x ∈ c4wDest ∨
        ∃ s ∈ c4wSrc, c4wSel s ∧ x.tid = s.tid ∧
          (x.idv = s.idv ∨ 4 ≤ x.idv) :=
  merge_exact_transfer_sorted c4wSel c4wDest c4wSrc 4
    (by decide) (by decide) (by decide) (by decide) (by decide) (by decide)
    (by decide) (by decide)

-- ### Claim C10

/-- The very first task record submitted to a fresh scheduler, before any
sequence id has been assigned (`id` starts unset). -/
def firstEverTask : SchedulerTask :=
  { tid := 0, cb := 0, prio := none, sig := none, delay := 0,
    isContinuation := false, id := none }

/-- `firstEverTask` after being pushed while `nextSequence` is 0. -/
def firstEverTaskPushed : SchedulerTask :=
  { tid := 0, cb := 0, prio := none, sig := none, delay := 0,
    isContinuation := false, id := some 0 }

/-- C10: the global `nextSequence` counter starts at 0, so the first task
ever pushed is assigned the stored sequence id 0; the `sequenceId` getter
then throws `"sequenceId has not been set!"` because `!this.id` is true
for the falsy value 0 — so reading the first pushed task's sequence id
throws even though the id was set.  A merge whose destination cursor
reaches this task (here: migrating a selected record into the queue
holding it) propagates the error instead of operating on the task. -/
theorem sequenceId_of_first_pushed_task_throws :
    (qpush firstEverTask [] 0).1 = [firstEverTaskPushed] ∧
    firstEverTaskPushed.sequenceId =
      .error "sequenceId has not been set!" ∧
    mergeE (fun _ => true) [firstEverTaskPushed]
      [{ tid := 1, cb := 1, prio := none, sig := none, delay := 0,
         isContinuation := false, id := some 1 }] 2 =
      .error "sequenceId has not been set!" := by
  decide

-- ### Claim C6: delay validation in postTaskOrContinuation

/-- A JS value passed as `options.delay`, restricted to the shapes relevant
to delay coercion: numbers (including `NaN`), numeric and non-numeric
strings, booleans, `null` and `undefined`. -/
inductive JSVal where
  | num (q : ℚ)
  | nanV
  | strNumeric (q : ℚ)
  | strNonNumeric
  | boolV (b : Bool)
  | nullV
  | undef
deriving DecidableEq, Repr

/-- The ECMAScript `ToNumber` conversion (the `Number()` builtin) for the
modelled values; `none` stands for `NaN`. -/
def toNumber : JSVal → Option ℚ
  | .num q => some q
  | .nanV => none
  | .strNumeric q => some q
  | .strNonNumeric => none
  | .boolV b => some (if b then 1 else 0)
  | .nullV => some 0
  | .undef => none

/-- The delay handling of `Scheduler.postTaskOrContinuation`
(`scheduler.ts` lines 205-214): `options.delay === undefined` defaults to
0; then `options.delay = Number(options.delay)`; then
`if (options.delay < 0) throw new TypeError(...)`.  In JS, `NaN < 0` is
false, so a `NaN` delay passes the check.  The argument `none` stands for
an absent `delay` key. -/
def coerceDelay (d : Option JSVal) : Except String (Option ℚ) :=
  let d0 : JSVal :=
    match d with
    | none => .num 0
    | some v => if v = .undef then .num 0 else v
  match toNumber d0 with
  | some q =>
    if q < 0 then .error "'delay' must be a positive number." else .ok (some q)
  | none => .ok none

/-- The delayed-submission test of `Scheduler.schedule` (`scheduler.ts`
line 244): `task.options.delay && task.options.delay > 0`.  Both `NaN` and
`0` are falsy, so neither takes the delayed branch. -/
def delayedBranch : Option ℚ → Bool
  | none => false
  | some q => if q = 0 then false else decide (0 < q)

/-- C6, counterexample: a non-numeric delay (a string that coerces to
`NaN`) does not raise a type violation — `Number(...)` yields `NaN`,
`NaN < 0` is false, and submission proceeds with the delayed branch
untaken; the claim says it raises synchronously. -/
theorem delay_non_numeric_accepted :
    coerceDelay (some .strNonNumeric) = .ok none ∧
    delayedBranch none = false := by
  constructor
  · rfl
  · rfl

/-- C6 (amended): an absent (or `undefined`) delay defaults to zero; a
delay coercing to a negative number raises a type violation synchronously;
a delay coercing to a non-negative number is accepted as that number; a
delay that does not coerce to a number (`NaN`) does not raise — it is
accepted and, being falsy, never takes the delayed-submission branch, so
the task behaves as if the delay were zero. -/
theorem delay_validation (v : JSVal) (q : ℚ) :
    coerceDelay none = .ok (some 0) ∧
    coerceDelay (some .undef) = .ok (some 0) ∧
    (toNumber v = some q → q < 0 →
      coerceDelay (some v) = .error "'delay' must be a positive number.") ∧
    (toNumber v = some q → 0 ≤ q → v ≠ .undef →
      coerceDelay (some v) = .ok (some q)) ∧
    (toNumber v = none → v ≠ .undef →
      coerceDelay (some v) = .ok none ∧ delayedBranch none = false) := by
  refine ⟨rfl, rfl, ?_, ?_, ?_⟩
  · intro hv hq
    have hvu : v ≠ .undef := by
      intro h
      rw [h] at hv
      exact absurd hv (by simp [toNumber])
    simp only [coerceDelay, if_neg hvu, hv]
    rw [if_pos hq]
  · intro hv hq hvu
    simp only [coerceDelay, if_neg hvu, hv]
    rw [if_neg (by exact not_lt.mpr hq)]
  · intro hv hvu
    refine ⟨?_, rfl⟩
    simp only [coerceDelay, if_neg hvu, hv]

/-- C6 witness: a negative numeric delay raises, a non-numeric delay is
accepted as `NaN`. -/
theorem delay_validation_witness :
    coerceDelay (some (.num (-1))) =
      .error "'delay' must be a positive number." ∧
    coerceDelay (some .strNonNumeric) = .ok none :=
  ⟨(delay_validation (.num (-1)) (-1)).2.2.1 rfl (by norm_num),
    ((delay_validation .strNonNumeric 0).2.2.2.2 rfl (by decide)).1⟩

-- ### Claims C7 and C8: TaskController.setPriority

/-- The `DOMException` kinds raised by `TaskController.setPriority`
(`task-controller.ts` line 149): `new DOMException("", "NotAllowedError")`. -/
inductive DOMErr where
  | notAllowed
deriving DecidableEq, Repr

/-- A `prioritychange` listener, as far as the controller model is
concerned: it either does something unrelated to the controller, or it
calls `setPriority(p)` back on the same controller. -/
inductive ListenerAct where
  | noop
  | trySetPriority (p : TaskPriority)
deriving DecidableEq, Repr

/-- The mutable state of a `TaskController` and its morphed signal: the
signal's `_priority` and the controller's `isPriorityChanging_` flag
(`task-controller.ts` lines 113, 28). -/
structure Ctrl where
  priority : TaskPriority
  isPriorityChanging : Bool
deriving DecidableEq, Repr

mutual

/-- `TaskController.setPriority` (`task-controller.ts` lines 145-168),
with an explicit fuel for the (in practice immediately-failing)
reentrancy through listeners.  The tag validation
`TaskPriorityTypes.includes(priority)` always succeeds for the inductive
tags.  Returns the new state, the `previousPriority` payloads of the
events dispatched (in dispatch order), the per-listener outcomes of the
dispatch performed by this call, and this call's own outcome (`none` for
a normal return, `some e` when the call throws `e`). -/
def setPriorityAux : Nat → Ctrl → TaskPriority → List ListenerAct →
    Ctrl × List TaskPriority × List (Option DOMErr) × Option DOMErr
  | 0, c, _, _ => (c, [], [], some .notAllowed)
  | fuel + 1, c, p, ls =>
    if c.isPriorityChanging then (c, [], [], some .notAllowed)
    else if c.priority = p then (c, [], [], none)
    else
      let prev := c.priority
      let st := dispatchLoop fuel { priority := p, isPriorityChanging := true }
        ls ls
      ({ st.1 with isPriorityChanging := false }, prev :: st.2.1, st.2.2, none)
termination_by fuel _ _ _ => (fuel, 0, 0)

/-- `signal.dispatchEvent(new TaskPriorityChangeEvent("prioritychange",
{previousPriority}))` (`task-controller.ts` lines 162-165): each listener
runs in order; a listener that throws (per the DOM event dispatch
algorithm) does not stop the remaining listeners.  The first listener-list
argument is the full listener list (used for nested dispatches); the
second is the part still to run. -/
def dispatchLoop : Nat → Ctrl → List ListenerAct → List ListenerAct →
    Ctrl × List TaskPriority × List (Option DOMErr)
  | _, c, _, [] => (c, [], [])
  | fuel, c, ls, .noop :: as =>
    let st := dispatchLoop fuel c ls as
    (st.1, st.2.1, none :: st.2.2)
  | fuel, c, ls, .trySetPriority q :: as =>
    let r := setPriorityAux fuel c q ls
    let st := dispatchLoop fuel r.1 ls as
    (st.1, r.2.1 ++ st.2.1, r.2.2.2 :: st.2.2)
termination_by fuel _ _ as => (fuel, 1, as.length)

end

/-- `TaskController.setPriority` with enough fuel for every run that
starts outside a dispatch (nested calls fail at the reentrancy check
before recursing further, so the fuel is never exhausted). -/
def setPriorityRun (c : Ctrl) (p : TaskPriority) (ls : List ListenerAct) :
    Ctrl × List TaskPriority × List (Option DOMErr) × Option DOMErr :=
  setPriorityAux (ls.length + 2) c p ls

/-- While `isPriorityChanging_` is set, a nested `setPriority` throws
`NotAllowedError` immediately and changes nothing (at every fuel). -/
theorem setPriorityAux_reentrant (fuel : Nat) (c : Ctrl) (p : TaskPriority)
    (ls : List ListenerAct) (h : c.isPriorityChanging = true) :
    setPriorityAux fuel c p ls = (c, [], [], some .notAllowed) := by
  cases fuel with
  | zero => simp [setPriorityAux]
  | succ n => simp [setPriorityAux, h]

/-- A dispatch running while `isPriorityChanging_` is set leaves the
state unchanged, dispatches no further events, and fails every listener
that calls `setPriority` with `NotAllowedError`. -/
theorem dispatchLoop_frozen (fuel : Nat) (c : Ctrl)
    (ls : List ListenerAct) (h : c.isPriorityChanging = true) :
    ∀ as : List ListenerAct,
    dispatchLoop fuel c ls as =
      (c, [],
        as.map (fun a =>
          match a with
          | .noop => none
          | .trySetPriority _ => some DOMErr.notAllowed))
  | [] => by simp [dispatchLoop]
  | .noop :: as => by
    rw [dispatchLoop]
    simp only [dispatchLoop_frozen fuel c ls h as, List.map_cons]
  | .trySetPriority q :: as => by
    rw [dispatchLoop]
    simp only [setPriorityAux_reentrant fuel c q ls h,
      dispatchLoop_frozen fuel c ls h as, List.map_cons, List.nil_append]

/-- The one-step unfolding of a state-changing `setPriorityRun`. -/
theorem setPriorityRun_change (c : Ctrl) (p : TaskPriority)
    (ls : List ListenerAct) (hflag : c.isPriorityChanging = false)
    (hne : c.priority ≠ p) :
    setPriorityRun c p ls =
      ({ priority := p, isPriorityChanging := false }, [c.priority],
        ls.map (fun a =>
          match a with
          | .noop => none
          | .trySetPriority _ => some DOMErr.notAllowed), none) := by
  rw [setPriorityRun]
  rw [show ls.length + 2 = (ls.length + 1) + 1 from rfl, setPriorityAux]
  simp only [hflag, Bool.false_eq_true, if_false, if_neg hne]
  rw [dispatchLoop_frozen (ls.length + 1)
    { priority := p, isPriorityChanging := true } ls rfl ls]

/-- A same-priority `setPriorityRun` returns normally without dispatching. -/
theorem setPriorityRun_noop (c : Ctrl) (ls : List ListenerAct)
    (hflag : c.isPriorityChanging = false) :
    setPriorityRun c c.priority ls = (c, [], [], none) := by
  rw [setPriorityRun]
  rw [show ls.length + 2 = (ls.length + 1) + 1 from rfl, setPriorityAux]
  simp [hflag]

/-- C7: starting from a controller at priority `a` that is not
mid-dispatch, the call sequence `setPriority(a); setPriority(b);
setPriority(a)` (with `b ≠ a`) leaves the signal priority at `a` and
dispatches exactly two `prioritychange` events, with `previousPriority`
`a` and then `b`; in particular the first call — `setPriority(p)` with
`signal.priority === p` — dispatches no event.  Holds for an arbitrary
listener list: listeners cannot alter the priority, because a nested
`setPriority` fails the reentrancy check. -/
theorem setPriority_roundtrip (a b : TaskPriority) (ls : List ListenerAct)
    (hne : b ≠ a) :
    (setPriorityRun { priority := a, isPriorityChanging := false } a ls).2.1
        = [] ∧
    (setPriorityRun { priority := a, isPriorityChanging := false } a ls).1
        = { priority := a, isPriorityChanging := false } ∧
    (setPriorityRun { priority := a, isPriorityChanging := false } b ls).2.1
        = [a] ∧
    (setPriorityRun { priority := a, isPriorityChanging := false } b ls).1
        = { priority := b, isPriorityChanging := false } ∧
    (setPriorityRun { priority := b, isPriorityChanging := false } a ls).2.1
        = [b] ∧
    (setPriorityRun { priority := b, isPriorityChanging := false } a ls).1
        = { priority := a, isPriorityChanging := false } := by
  have h1 := setPriorityRun_noop { priority := a, isPriorityChanging := false }
    ls rfl
  have h2 := setPriorityRun_change { priority := a, isPriorityChanging := false }
    b ls rfl (fun h => hne h.symm)
  have h3 := setPriorityRun_change { priority := b, isPriorityChanging := false }
    a ls rfl (fun h => hne h)
  exact ⟨by rw [h1], by rw [h1], by rw [h2], by rw [h2], by rw [h3],
    by rw [h3]⟩

/-- C7 witness: the round trip `user-visible → background → user-visible`
with no listeners. -/
theorem setPriority_roundtrip_witness :
    (setPriorityRun
        { priority := .userVisible, isPriorityChanging := false }
        .userVisible []).2.1 = [] ∧
    (setPriorityRun
        { priority := .userVisible, isPriorityChanging := false }
        .userVisible []).1 =
      { priority := .userVisible, isPriorityChanging := false } ∧
    (setPriorityRun
        { priority := .userVisible, isPriorityChanging := false }
        .background []).2.1 = [.userVisible] ∧
    (setPriorityRun
        { priority := .userVisible, isPriorityChanging := false }
        .background []).1 =
      { priority := .background, isPriorityChanging := false } ∧
    (setPriorityRun
        { priority := .background, isPriorityChanging := false }
        .userVisible []).2.1 = [.background] ∧
    (setPriorityRun
        { priority := .background, isPriorityChanging := false }
        .userVisible []).1 =
      { priority := .userVisible, isPriorityChanging := false } :=
  setPriority_roundtrip .userVisible .background [] (by decide)

/-- C8: a `setPriority` call made from within a `prioritychange` listener
— i.e. during a dispatch triggered by an outer `setPriority(p)` on the
same controller with `p` different from the current priority — raises
`NotAllowedError` at the point of the nested call: the outcome recorded
for that listener is the `NotAllowedError` failure (whatever priority `q`
it requested). -/
theorem setPriority_nested_disallowed (c : Ctrl) (p q : TaskPriority)
    (ls : List ListenerAct) (i : Nat)
    (hflag : c.isPriorityChanging = false) (hne : c.priority ≠ p)
    (hl : ls[i]? = some (.trySetPriority q)) :
    (setPriorityRun c p ls).2.2.1[i]? = some (some DOMErr.notAllowed) := by
  rw [setPriorityRun_change c p ls hflag hne]
  simp only [List.getElem?_map, hl, Option.map_some]
  rfl

/-- C8 witness: a single listener that calls `setPriority` back gets the
`NotAllowedError` outcome. -/
theorem setPriority_nested_disallowed_witness :
    (setPriorityRun { priority := .userVisible, isPriorityChanging := false }
      .background [.trySetPriority .userBlocking]).2.2.1[0]? =
      some (some DOMErr.notAllowed) :=
  setPriority_nested_disallowed
    { priority := .userVisible, isPriorityChanging := false }
    .background .userBlocking [.trySetPriority .userBlocking] 0 rfl
    (by decide) rfl

-- ### Claim C9: prioritized promises share their controller

/-- A prioritized promise (`src/Task.ts`, class `Task`): it owns a
`TaskController` (modelled by its identity) and wraps an executor
(likewise by identity). -/
structure TaskProm where
  controller : Nat
  executor : Nat
deriving DecidableEq, Repr

/-- The `Task` constructor (`Task.ts` lines 484-518): an executor and an
optional controller; when no controller is passed, a fresh
`new TaskController(Task.defaultControllerOptions)` (identity
`freshCtrl`) is used. -/
def TaskProm.make (executor : Nat) (controllerArg : Option Nat)
    (freshCtrl : Nat) : TaskProm :=
  { controller := controllerArg.getD freshCtrl, executor := executor }

/-- `Task.then` (`Task.ts` lines 526-557): builds a new `Task` from a
fresh forwarding executor and — «reuse the controller to maintain task
priority settings» — `this.controller`. -/
def TaskProm.thenTask (t : TaskProm) (freshExec freshCtrl : Nat) :
    TaskProm :=
  TaskProm.make freshExec (some t.controller) freshCtrl

/-- `Task.catch` (`Task.ts` lines 571-589): same controller reuse. -/
def TaskProm.catchTask (t : TaskProm) (freshExec freshCtrl : Nat) :
    TaskProm :=
  TaskProm.make freshExec (some t.controller) freshCtrl

/-- `Task.finally` (`Task.ts` lines 598-604): same controller reuse. -/
def TaskProm.finallyTask (t : TaskProm) (freshExec freshCtrl : Nat) :
    TaskProm :=
  TaskProm.make freshExec (some t.controller) freshCtrl

/-- C9: every chain member produced by `then`, `catch` or `finally` from a
prioritized promise `t1` shares `t1`'s controller instance —
`t2.controller === t1.controller` — so a priority change on the controller
is observed by the whole chain.  (The fresh-controller arguments are the
controllers that `new TaskController(...)` would have created; they are
not used, since the constructor receives `this.controller`.) -/
theorem task_chain_shares_controller (t : TaskProm)
    (e1 e2 e3 f1 f2 f3 : Nat) :
    (t.thenTask e1 f1).controller = t.controller ∧
    (t.catchTask e2 f2).controller = t.controller ∧
    (t.finallyTask e3 f3).controller = t.controller ∧
    ((t.thenTask e1 f1).thenTask e2 f2).controller = t.controller :=
  ⟨rfl, rfl, rfl, rfl⟩

-- ### The queue pairs of the Scheduler and its dispatch scan

/-- The index into a priority's queue pair
(`scheduler.ts` line 108: «Continuation and task queue for each priority,
in that order»): index 0 holds continuations, index 1 fresh tasks. -/
inductive QKind where
  | cont
  | fresh
deriving DecidableEq, Repr

/-- The `for (let type = 0; type < 2; type++)` iteration order of
`nextTaskPriority` (`scheduler.ts` line 427): continuations (index 0)
first. -/
def QKinds : List QKind := [.cont, .fresh]

/-- The six queues of `Scheduler.queues`: one `[continuations, tasks]`
pair per priority (`scheduler.ts` lines 108, 131-135). -/
structure Queues where
  ubCont : List SchedulerTask
  ubTask : List SchedulerTask
  uvCont : List SchedulerTask
  uvTask : List SchedulerTask
  bgCont : List SchedulerTask
  bgTask : List SchedulerTask
deriving DecidableEq, Repr

/-- `this.queues[priority][kind]`. -/
def qget (qs : Queues) (p : TaskPriority) (k : QKind) : List SchedulerTask :=
  match p, k with
  | .userBlocking, .cont => qs.ubCont
  | .userBlocking, .fresh => qs.ubTask
  | .userVisible, .cont => qs.uvCont
  | .userVisible, .fresh => qs.uvTask
  | .background, .cont => qs.bgCont
  | .background, .fresh => qs.bgTask

/-- Assignment to `this.queues[priority][kind]`. -/
def qset (qs : Queues) (p : TaskPriority) (k : QKind)
    (l : List SchedulerTask) : Queues :=
  match p, k with
  | .userBlocking, .cont => { qs with ubCont := l }
  | .userBlocking, .fresh => { qs with ubTask := l }
  | .userVisible, .cont => { qs with uvCont := l }
  | .userVisible, .fresh => { qs with uvTask := l }
  | .background, .cont => { qs with bgCont := l }
  | .background, .fresh => { qs with bgTask := l }

/-- The scheduler at construction: six empty queues
(`scheduler.ts` lines 131-135). -/
def emptyQueues : Queues := ⟨[], [], [], [], [], []⟩

/-- `headTask` is non-null exactly when the queue is nonempty. -/
def queueHasTask (q : List SchedulerTask) : Bool :=
  match q with
  | [] => false
  | _ => true

/-- `Scheduler.nextTaskPriority` (`scheduler.ts` lines 425-432): scan
priorities in `TaskPriorityTypes` order and, within each, kind 0 before
kind 1; return the first pair whose queue has a head task, else null. -/
def nextTaskPriority (qs : Queues) : Option (TaskPriority × QKind) :=
  TaskPriorityTypes.findSome? fun p =>
    QKinds.findSome? fun k =>
      if queueHasTask (qget qs p k) then some (p, k) else none

/-- One iteration of the do-while loop of `Scheduler.runNextTask`
(`scheduler.ts` lines 396-406): find the next (priority, kind), take that
queue's head.  Returns the popped task and the shrunken queues. -/
def popNext (qs : Queues) :
    Option ((TaskPriority × QKind) × SchedulerTask × Queues) :=
  match nextTaskPriority qs with
  | none => none
  | some (p, k) =>
    match takeNextTask (qget qs p k) with
    | none => none
    | some (t, rest) => some ((p, k), t, qset qs p k rest)

/-- `Scheduler.runNextTask` (`scheduler.ts` lines 390-416), up to the
callback invocation: keep popping until a non-aborted task is found
(aborted tasks leave their queue and are discarded silently), then return
it.  `ab t` is `t.isAborted()`, i.e. `t.options.signal &&
t.options.signal.aborted`.  The fuel dominates the total queue length. -/
def runNextTaskF (ab : SchedulerTask → Bool) :
    Nat → Queues → Option SchedulerTask × Queues
  | 0, qs => (none, qs)
  | fuel + 1, qs =>
    match popNext qs with
    | none => (none, qs)
    | some (_, t, qs') =>
      if ab t then runNextTaskF ab fuel qs' else (some t, qs')

/-- Total number of queued records. -/
def totalLen (qs : Queues) : Nat :=
  qs.ubCont.length + qs.ubTask.length + qs.uvCont.length +
    qs.uvTask.length + qs.bgCont.length + qs.bgTask.length

/-- The queues in dispatch-scan order, concatenated. -/
def scanConcat (qs : Queues) : List SchedulerTask :=
  qs.ubCont ++ qs.ubTask ++ qs.uvCont ++ qs.uvTask ++ qs.bgCont ++ qs.bgTask

/-- Repeated dispatch ticks until the queues are exhausted, collecting the
tasks whose callbacks are invoked, in order.  This is the sequence of
`runNextTask` invocations the host callbacks perform while no new work
arrives. -/
def dispatchAllF (ab : SchedulerTask → Bool) :
    Nat → Queues → List SchedulerTask
  | 0, _ => []
  | fuel + 1, qs =>
    match runNextTaskF ab (totalLen qs + 1) qs with
    | (none, _) => []
    | (some t, qs') => t :: dispatchAllF ab fuel qs'

-- ### popNext structure lemmas

theorem popNext_none_iff (qs : Queues) :
    popNext qs = none ↔ scanConcat qs = [] := by
  rcases qs with ⟨q1, q2, q3, q4, q5, q6⟩
  cases q1 <;> cases q2 <;> cases q3 <;> cases q4 <;> cases q5 <;> cases q6 <;>
    simp [popNext, nextTaskPriority, TaskPriorityTypes, QKinds,
      List.findSome?, qget, qset, queueHasTask, takeNextTask, scanConcat]

theorem popNext_cons {qs : Queues} {pk : TaskPriority × QKind}
    {t : SchedulerTask} {qs' : Queues}
    (h : popNext qs = some (pk, t, qs')) :
    scanConcat qs = t :: scanConcat qs' ∧ totalLen qs = totalLen qs' + 1 := by
  rcases qs with ⟨q1, q2, q3, q4, q5, q6⟩
  cases q1 <;> cases q2 <;> cases q3 <;> cases q4 <;> cases q5 <;> cases q6 <;>
    (simp [popNext, nextTaskPriority, TaskPriorityTypes, QKinds,
        List.findSome?, qget, qset, queueHasTask, takeNextTask] at h <;>
      obtain ⟨rfl, rfl, rfl⟩ := h) <;>
    simp [scanConcat, totalLen] <;> omega

-- ### Dispatch order

theorem scanConcat_length (qs : Queues) :
    (scanConcat qs).length = totalLen qs := by
  simp [scanConcat, totalLen]
  omega

theorem scanConcat_nil_of_totalLen {qs : Queues} (h : totalLen qs = 0) :
    scanConcat qs = [] := by
  have := scanConcat_length qs
  rw [h] at this
  exact List.length_eq_zero.mp this

/-- With no abortable task in sight, repeated dispatch runs the queues in
exactly the scan order: all of `[user-blocking][0]`, then
`[user-blocking][1]`, then the same for user-visible and background. -/
theorem dispatchAllF_scan (ab : SchedulerTask → Bool) :
    ∀ (fuel : Nat) (qs : Queues), totalLen qs ≤ fuel →
    (∀ t ∈ scanConcat qs, ab t = false) →
    dispatchAllF ab fuel qs = scanConcat qs
  | 0, qs, hfuel, _ => by
    rw [dispatchAllF, scanConcat_nil_of_totalLen (Nat.le_zero.mp hfuel)]
  | fuel + 1, qs, hfuel, hab => by
    rcases hpop : popNext qs with _ | ⟨pk, t, qs'⟩
    · have hscan := (popNext_none_iff qs).mp hpop
      have hrun : runNextTaskF ab (totalLen qs + 1) qs = (none, qs) := by
        rw [runNextTaskF, hpop]
      rw [hscan]
      rw [dispatchAllF, hrun]
    · obtain ⟨hscan, hlen⟩ := popNext_cons hpop
      have htmem : t ∈ scanConcat qs := by
        rw [hscan]
        exact List.mem_cons_self t _
      have habt : ab t = false := hab t htmem
      have hrun : runNextTaskF ab (totalLen qs + 1) qs = (some t, qs') := by
        rw [runNextTaskF, hpop]
        simp [habt]
      have hih := dispatchAllF_scan ab fuel qs' (by omega)
        (fun x hx => hab x (by rw [hscan]; exact List.mem_cons_of_mem t hx))
      rw [dispatchAllF, hrun]
      show t :: dispatchAllF ab fuel qs' = scanConcat qs
      rw [hih, hscan]

-- ### The event machine: scheduler, signals, host callbacks, promises

/-- The observable state of an `AbortSignal`/`TaskSignal`: `aborted` and
`reason` from the base controller, and the mutable `priority` attribute
when the signal is a `TaskSignal` (`none` for a plain `AbortSignal`). -/
structure SigState where
  aborted : Bool
  reason : Nat
  priority : Option TaskPriority
deriving DecidableEq, Repr

/-- The state of the promise returned by a submission. -/
inductive PState where
  | pending
  | resolved (v : Nat)
  | rejected (r : Nat)
deriving DecidableEq, Repr

/-- The per-task bookkeeping of a `SchedulerTask` outside the queues: the
promise handles, the abort listener (`abortCallback`), the pending delay
`HostCallback` (`hostCallback`) and, for a delayed task, the record
waiting to be enqueued when the timer fires. -/
structure TaskMeta where
  tid : Nat
  sig : Option Nat
  promise : PState
  abortCallback : Bool
  delayHc : Option Nat
  pendingRecord : Option SchedulerTask
deriving DecidableEq, Repr

/-- A `HostCallback` (`polyfill.ts`, class `HostCallback`): `isDelay`
marks the per-task delay timers (`CallbackType.SET_TIMEOUT` with a
positive delay); `idle` marks `requestIdleCallback` scheduling;
`canceled` and `fired` record `cancel()` and `runCallback()`. -/
structure HostCB where
  hid : Nat
  isDelay : Bool
  forTask : Option Nat
  idle : Bool
  canceled : Bool
  fired : Bool
deriving DecidableEq, Repr

/-- The whole system: the scheduler's queues, `nextSequence` counter and
signal registry, the single `pendingHostCallback` slot, every
`HostCallback` ever created, the signals, the task bookkeeping, and the
ordered list of task ids whose callbacks have been invoked. -/
structure World where
  queues : Queues
  counter : Nat
  registry : List (Nat × TaskPriority)
  pendingHostCallback : Option Nat
  hcs : List HostCB
  nextHid : Nat
  sigs : List SigState
  tasks : List TaskMeta
  nextTid : Nat
  invoked : List Nat
deriving DecidableEq, Repr

/-- `signal.aborted` (false for a dangling signal id). -/
def sigAbortedW (w : World) (sid : Nat) : Bool :=
  match w.sigs[sid]? with
  | some s => s.aborted
  | none => false

/-- `signal.reason`. -/
def sigReasonW (w : World) (sid : Nat) : Nat :=
  match w.sigs[sid]? with
  | some s => s.reason
  | none => 0

/-- `"priority" in signal ? signal.priority : absent`. -/
def sigPrioW (w : World) (sid : Nat) : Option TaskPriority :=
  match w.sigs[sid]? with
  | some s => s.priority
  | none => none

/-- `task.isAborted()` (`scheduler.ts` lines 96-98):
`this.options.signal && this.options.signal.aborted`. -/
def abW (w : World) (t : SchedulerTask) : Bool :=
  match t.sig with
  | some sid => sigAbortedW w sid
  | none => false

/-- Look up a host callback by handle. -/
def hcOf (w : World) (hid : Nat) : Option HostCB :=
  w.hcs.find? (fun h => h.hid == hid)

/-- `pendingHostCallback.isIdleCallback()`. -/
def isIdleHcW (w : World) (hid : Nat) : Bool :=
  match hcOf w hid with
  | some h => h.idle
  | none => false

/-- `hostCallback.cancel()`: idempotent, marks the callback canceled. -/
def markCanceled (hcs : List HostCB) (hid : Nat) : List HostCB :=
  hcs.map (fun h => if h.hid = hid then { h with canceled := true } else h)

/-- Mark a host callback as having run. -/
def markFired (hcs : List HostCB) (hid : Nat) : List HostCB :=
  hcs.map (fun h => if h.hid = hid then { h with fired := true } else h)

/-- Settle a task's promise; a promise settles at most once, later
`resolve`/`reject` calls are ignored. -/
def settleTask (tasks : List TaskMeta) (tid : Nat) (st : PState) :
    List TaskMeta :=
  tasks.map (fun m =>
    if m.tid = tid then
      (if m.promise = .pending then { m with promise := st } else m)
    else m)

/-- `onTaskCompleted` (`scheduler.ts` lines 78-82): detach the abort
listener. -/
def detachListener (tasks : List TaskMeta) (tid : Nat) : List TaskMeta :=
  tasks.map (fun m =>
    if m.tid = tid then { m with abortCallback := false } else m)

/-- `Scheduler.pushTask` (`scheduler.ts` lines 353-384): resolve the
effective priority (explicit `options.priority` first, else the signal's
`priority` attribute, else `"user-visible"`); on first sight of a
`TaskSignal` subscribe to its priority changes (recorded in the
registry); push onto `queues[priority][isContinuation ? 0 : 1]`. -/
def pushTaskW (w : World) (t : SchedulerTask) : World :=
  let priority : TaskPriority :=
    match t.prio with
    | some p => p
    | none =>
      match t.sig with
      | some sid => (sigPrioW w sid).getD .userVisible
      | none => .userVisible
  let reg :=
    match t.sig with
    | some sid =>
      match sigPrioW w sid with
      | some sp =>
        if (w.registry.lookup sid).isSome then w.registry
        else w.registry ++ [(sid, sp)]
      | none => w.registry
    | none => w.registry
  let k : QKind := if t.isContinuation then .cont else .fresh
  let pushed := qpush t (qget w.queues priority k) w.counter
  { w with
    queues := qset w.queues priority k pushed.1,
    counter := pushed.2,
    registry := reg }

/-- `Scheduler.scheduleHostCallbackIfNeeded` (`scheduler.ts` lines
318-345): find the highest priority with work; upgrade (cancel) a pending
idle callback when non-background work exists; if no callback is pending,
create one.  `ia` is the availability of `requestIdleCallback`, which
decides whether a background-priority callback uses the idle primitive. -/
def scheduleHostCallbackIfNeeded (ia : Bool) (w : World) : World :=
  match nextTaskPriority w.queues with
  | none => w
  | some (p, _) =>
    let w1 :=
      match w.pendingHostCallback with
      | some hid =>
        if p ≠ TaskPriority.background ∧ isIdleHcW w hid then
          { w with hcs := markCanceled w.hcs hid, pendingHostCallback := none }
        else w
      | none => w
    match w1.pendingHostCallback with
    | some _ => w1
    | none =>
      { w1 with
        pendingHostCallback := some w1.nextHid,
        hcs := w1.hcs ++
          [({ hid := w1.nextHid
              isDelay := false
              forTask := none
              idle := (p = TaskPriority.background && ia)
              canceled := false
              fired := false } : HostCB)],
        nextHid := w1.nextHid + 1 }

/-- The callback-running part of `Scheduler.runNextTask` (`scheduler.ts`
lines 408-415): pop the oldest highest-priority non-aborted task, invoke
its callback (`cbRes` gives each callback's behaviour: return a value or
throw), settle the promise accordingly, and detach the abort listener.
Aborted tasks popped on the way leave their queues silently. -/
def runNextTaskW (cbRes : Nat → Except Nat Nat) (w : World) : World :=
  match runNextTaskF (abW w) (totalLen w.queues + 1) w.queues with
  | (none, qs') => { w with queues := qs' }
  | (some t, qs') =>
    let tasks1 :=
      match cbRes t.cb with
      | .ok v => settleTask w.tasks t.tid (.resolved v)
      | .error e => settleTask w.tasks t.tid (.rejected e)
    { w with
      queues := qs',
      tasks := detachListener tasks1 t.tid,
      invoked := w.invoked ++ [t.tid] }

/-- `Scheduler.schedulerEntryCallback` (`scheduler.ts` lines 309-313):
clear the pending-callback slot, run one task, re-arm. -/
def schedulerEntryCallback (ia : Bool) (cbRes : Nat → Except Nat Nat)
    (w : World) : World :=
  scheduleHostCallbackIfNeeded ia
    (runNextTaskW cbRes { w with pendingHostCallback := none })

/-- The submission path `postTask`/`yield` →
`postTaskOrContinuation` → `schedule` (`scheduler.ts` lines 157-258),
after option validation, for a delay that coerced to the non-negative
whole number `delay`.  If the signal is already aborted, reject with its
reason and stop.  Otherwise attach the abort listener; for `delay > 0`
create the per-task delay host callback and stop (the task is not yet
enqueued); otherwise push the task and arm the scheduler's host
callback. -/
def submitW (ia : Bool) (w : World) (cb : Nat) (sigArg : Option Nat)
    (prioArg : Option TaskPriority) (delay : Nat) (isCont : Bool) : World :=
  let tid := w.nextTid
  let record : SchedulerTask :=
    { tid := tid, cb := cb, prio := prioArg, sig := sigArg, delay := delay,
      isContinuation := isCont, id := none }
  let meta0 : TaskMeta :=
    { tid := tid, sig := sigArg, promise := .pending, abortCallback := false,
      delayHc := none, pendingRecord := none }
  let alreadyAborted :=
    match sigArg with
    | some sid => sigAbortedW w sid
    | none => false
  if alreadyAborted then
    let reason :=
      match sigArg with
      | some sid => sigReasonW w sid
      | none => 0
    { w with
      tasks := w.tasks ++ [{ meta0 with promise := .rejected reason }],
      nextTid := tid + 1 }
  else
    let meta1 := { meta0 with abortCallback := sigArg.isSome }
    if 0 < delay then
      { w with
        tasks := w.tasks ++
          [{ meta1 with
             delayHc := some w.nextHid
             pendingRecord := some record }],
        hcs := w.hcs ++
          [({ hid := w.nextHid
              isDelay := true
              forTask := some tid
              idle := false
              canceled := false
              fired := false } : HostCB)],
        nextHid := w.nextHid + 1, nextTid := tid + 1 }
    else
      scheduleHostCallbackIfNeeded ia
        (pushTaskW { w with tasks := w.tasks ++ [meta1], nextTid := tid + 1 }
          record)

/-- `TaskController.abort` followed by the scheduler-installed abort
listeners: mark the signal aborted with the given reason (a no-op if it
already was), then run `onTaskAborted` (`scheduler.ts` lines 84-94) for
every task of this signal whose listener is attached: cancel its pending
delay host callback, detach the listener, reject its promise with the
signal's reason. -/
def abortSignalW (w : World) (sid : Nat) (r : Nat) : World :=
  match w.sigs[sid]? with
  | none => w
  | some s =>
    if s.aborted then w
    else
      let cancels := w.tasks.filterMap (fun m =>
        if m.sig = some sid ∧ m.abortCallback then m.delayHc else none)
      { w with
        sigs := w.sigs.set sid { s with aborted := true, reason := r },
        tasks := w.tasks.map (fun m =>
          if m.sig = some sid ∧ m.abortCallback then
            { m with
              delayHc := none
              abortCallback := false
              promise :=
                if m.promise = .pending then .rejected r else m.promise }
          else m),
        hcs := w.hcs.map (fun h =>
          if h.hid ∈ cancels then { h with canceled := true } else h) }

/-- A host callback firing (`HostCallback.runCallback`: nothing happens if
it was canceled, and it runs at most once).  A delay callback clears the
task's `hostCallback`, re-enters through `onTaskDelayExpired`
(`scheduler.ts` lines 265-278): push the ready task, cancel the pending
scheduler callback, and run the entry callback immediately.  A scheduler
(dispatch) callback runs `schedulerEntryCallback`. -/
def fireHcW (ia : Bool) (cbRes : Nat → Except Nat Nat) (w : World)
    (hid : Nat) : World :=
  match hcOf w hid with
  | none => w
  | some hc =>
    if hc.canceled ∨ hc.fired then w
    else
      let w1 := { w with hcs := markFired w.hcs hid }
      if hc.isDelay then
        match hc.forTask with
        | none => w1
        | some tid =>
          match (w1.tasks.find? (fun m => m.tid == tid)).bind
              (fun m => m.pendingRecord) with
          | none => w1
          | some record =>
            let w2 := pushTaskW
              { w1 with tasks := w1.tasks.map (fun m =>
                  if m.tid = tid then
                    { m with delayHc := none, pendingRecord := none }
                  else m) }
              record
            let w3 :=
              match w2.pendingHostCallback with
              | some ph =>
                { w2 with
                  hcs := markCanceled w2.hcs ph,
                  pendingHostCallback := none }
              | none => w2
            schedulerEntryCallback ia cbRes w3
      else
        schedulerEntryCallback ia cbRes w1

/-- The operations the host and the callers can interleave: a submission,
an abort, and a host callback firing. -/
inductive Op where
  | submit (cb : Nat) (sig : Option Nat) (prio : Option TaskPriority)
      (delay : Nat) (isCont : Bool)
  | abort (sid : Nat) (reason : Nat)
  | fire (hid : Nat)
deriving DecidableEq, Repr

/-- One machine step. -/
def stepW (ia : Bool) (cbRes : Nat → Except Nat Nat) (w : World) :
    Op → World
  | .submit cb sig prio delay isCont => submitW ia w cb sig prio delay isCont
  | .abort sid r => abortSignalW w sid r
  | .fire hid => fireHcW ia cbRes w hid

/-- Run a sequence of operations. -/
def runW (ia : Bool) (cbRes : Nat → Except Nat Nat) (w : World) :
    List Op → World
  | [] => w
  | op :: ops => runW ia cbRes (stepW ia cbRes w op) ops

/-- A fresh scheduler (empty queues, counter 0, nothing pending) next to
an arbitrary collection of pre-existing signals. -/
def initW (sigs : List SigState) : World :=
  { queues := emptyQueues, counter := 0, registry := [],
    pendingHostCallback := none, hcs := [], nextHid := 0, sigs := sigs,
    tasks := [], nextTid := 0, invoked := [] }

-- ### Dispatch runs the scan order, skipping aborted tasks

theorem runNextTaskF_filter (ab : SchedulerTask → Bool) :
    ∀ (fuel : Nat) (qs : Queues), totalLen qs < fuel →
    (∀ qs'', runNextTaskF ab fuel qs = (none, qs'') →
      (scanConcat qs).filter (fun t => !ab t) = []) ∧
    (∀ t qs', runNextTaskF ab fuel qs = (some t, qs') →
      (scanConcat qs).filter (fun t => !ab t) =
        t :: (scanConcat qs').filter (fun t => !ab t) ∧
      totalLen qs' < totalLen qs)
  | 0, qs, hfuel => absurd hfuel (by omega)
  | fuel + 1, qs, hfuel => by
    rcases hpop : popNext qs with _ | ⟨pk, t, qs''⟩
    · have hscan := (popNext_none_iff qs).mp hpop
      constructor
      · intro _ _
        rw [hscan, List.filter_nil]
      · intro t qs' hrun
        rw [runNextTaskF, hpop] at hrun
        exact absurd hrun (by simp)
    · obtain ⟨hscan, hlen⟩ := popNext_cons hpop
      by_cases habt : ab t = true
      · have hrun : runNextTaskF ab (fuel + 1) qs = runNextTaskF ab fuel qs'' := by
          rw [runNextTaskF, hpop]
          simp [habt]
        have hfilter : (scanConcat qs).filter (fun t => !ab t) =
            (scanConcat qs'').filter (fun t => !ab t) := by
          rw [hscan, List.filter_cons_of_neg (by simp [habt])]
        obtain ⟨ih1, ih2⟩ := runNextTaskF_filter ab fuel qs'' (by omega)
        constructor
        · intro x hx
          rw [hfilter]
          exact ih1 x (by rw [← hrun]; exact hx)
        · intro u qs' hrun'
          rw [hrun] at hrun'
          obtain ⟨e1, e2⟩ := ih2 u qs' hrun'
          exact ⟨by rw [hfilter, e1], by omega⟩
      · have hrun : runNextTaskF ab (fuel + 1) qs = (some t, qs'') := by
          rw [runNextTaskF, hpop]
          simp [habt]
        constructor
        · intro x hx
          rw [hrun] at hx
          exact absurd hx (by simp)
        · intro u qs' hrun'
          rw [hrun] at hrun'
          have hpair := Prod.mk.injEq (α := Option SchedulerTask)
            (β := Queues) (some t) qs'' (some u) qs' ▸ hrun'
          obtain ⟨ht, rfl⟩ := hpair
          obtain rfl := Option.some.inj ht
          refine ⟨?_, by omega⟩
          rw [hscan, List.filter_cons_of_pos (by simp [habt])]

/-- Repeated dispatch runs exactly the non-aborted tasks, in scan order:
all of `[user-blocking][0]`, then `[user-blocking][1]`, then the same for
user-visible, then background — within each queue in list (sequence-id)
order — with aborted tasks skipped. -/
theorem dispatchAllF_filter (ab : SchedulerTask → Bool) :
    ∀ (fuel : Nat) (qs : Queues), totalLen qs ≤ fuel →
    dispatchAllF ab fuel qs = (scanConcat qs).filter (fun t => !ab t)
  | 0, qs, hfuel => by
    rw [dispatchAllF, scanConcat_nil_of_totalLen (Nat.le_zero.mp hfuel),
      List.filter_nil]
  | fuel + 1, qs, hfuel => by
    obtain ⟨h1, h2⟩ := runNextTaskF_filter ab (totalLen qs + 1) qs (by omega)
    rcases hrun : runNextTaskF ab (totalLen qs + 1) qs with ⟨o, qs'⟩
    match o, hrun with
    | none, hrun =>
      rw [dispatchAllF, hrun, (h1 qs' hrun).symm]
    | some t, hrun =>
      obtain ⟨e1, e2⟩ := h2 t qs' hrun
      rw [dispatchAllF, hrun]
      show t :: dispatchAllF ab fuel qs' = _
      rw [dispatchAllF_filter ab fuel qs' (by omega), e1]

-- ### Claim C1

/-- A no-signal, no-explicit-priority task for the C1 witness. -/
def c1Mk (tid : Nat) (cont : Bool) (sq : Nat) : SchedulerTask :=
  { tid := tid, cb := 0, prio := none, sig := none, delay := 0,
    isContinuation := cont, id := some sq }

/-- Six queues holding one task each, ids in scan order. -/
def c1Queues : Queues :=
  { ubCont := [c1Mk 0 true 1], ubTask := [c1Mk 1 false 2],
    uvCont := [c1Mk 2 true 3], uvTask := [c1Mk 3 false 4],
    bgCont := [c1Mk 4 true 5], bgTask := [c1Mk 5 false 6] }

/-- The B-C-A scenario: submit A(background), B(user-blocking),
C(user-visible), then let the armed host callbacks fire. -/
def c1Scenario : List Op :=
  [.submit 0 none (some .background) 0 false,
   .submit 1 none (some .userBlocking) 0 false,
   .submit 2 none (some .userVisible) 0 false,
   .fire 0, .fire 1, .fire 2]

/-- C1: dispatch follows the scan order — across priorities, higher always
before lower; within a priority, continuations (kind 0) before fresh
tasks (kind 1); within a queue, list (sequence-id, i.e. submission)
order; aborted tasks are skipped.  In particular, submitting callbacks
A(background), B(user-blocking), C(user-visible) in that order with no
signal and firing the host callbacks dispatches B (tid 1), C (tid 2),
A (tid 0) — in that order. -/
theorem dispatch_priority_order (ab : SchedulerTask → Bool) (fuel : Nat)
    (qs : Queues) (hfuel : totalLen qs ≤ fuel) :
    dispatchAllF ab fuel qs =
      (qs.ubCont ++ qs.ubTask ++ qs.uvCont ++ qs.uvTask ++ qs.bgCont ++
        qs.bgTask).filter (fun t => !ab t) ∧
    (runW false (fun n => .ok n) (initW []) c1Scenario).invoked =
      [1, 2, 0] := by
  constructor
  · rw [dispatchAllF_filter ab fuel qs hfuel]
    rfl
  · decide

/-- C1 witness: one task in each of the six queues, none aborted. -/
theorem dispatch_priority_order_witness :
    dispatchAllF (fun _ => false) 6 c1Queues =
      [c1Mk 0 true 1, c1Mk 1 false 2, c1Mk 2 true 3, c1Mk 3 false 4,
        c1Mk 4 true 5, c1Mk 5 false 6] ∧
    (runW false (fun n => .ok n) (initW []) c1Scenario).invoked =
      [1, 2, 0] := by
  have h := dispatch_priority_order (fun _ => false) 6 c1Queues (by decide)
  exact ⟨by rw [h.1]; rfl, h.2⟩

-- ### Claim C3: explicit priority vs. signal migration

theorem exceptBindErr {α β ε : Type} (e : ε) (f : α → Except ε β) :
    (Except.error e >>= f : Except ε β) = Except.error e := rfl

/-- The fast-forward split, when it succeeds, splits the cursor list. -/
theorem ffwd_append (t : SchedulerTask) :
    ∀ (l pre post : List SchedulerTask),
    ffwd t l = .ok (pre, post) → pre ++ post = l
  | [], pre, post, h => by
    simp only [ffwd, Except.ok.injEq, Prod.mk.injEq] at h
    obtain ⟨rfl, rfl⟩ := h
    rfl
  | d :: ds, pre, post, h => by
    rw [ffwd] at h
    rcases hd : d.sequenceId with e | s
    · rw [hd, exceptBindErr] at h
      exact absurd h (by simp)
    · rw [hd, exceptBindOk] at h
      rcases ht : t.sequenceId with e | k
      · rw [ht, exceptBindErr] at h
        exact absurd h (by simp)
      · rw [ht, exceptBindOk] at h
        by_cases hlt : s < k
        · rw [if_pos hlt] at h
          rcases hrec : ffwd t ds with e | ⟨pre', post'⟩
          · rw [hrec, exceptBindErr] at h
            exact absurd h (by simp)
          · rw [hrec, exceptBindOk] at h
            simp only [Except.ok.injEq, Prod.mk.injEq] at h
            obtain ⟨rfl, rfl⟩ := h
            rw [List.cons_append, ffwd_append t ds pre' post' hrec]
        · rw [if_neg hlt] at h
          simp only [Except.ok.injEq, Prod.mk.injEq] at h
          obtain ⟨rfl, rfl⟩ := h
          rfl

/-- A successful merge never loses a record already in the destination. -/
theorem mergeGo_dest_mono (sel : SchedulerTask → Bool) :
    ∀ (src kept done rest : List SchedulerTask) (c : Nat)
      (d2 s2 : List SchedulerTask) (c2 : Nat),
    mergeGo sel src kept done rest c = .ok (d2, s2, c2) →
    ∀ x ∈ done ++ rest, x ∈ d2
  | [], kept, done, rest, c, d2, s2, c2, h, x, hx => by
    simp only [mergeGo, Except.ok.injEq, Prod.mk.injEq] at h
    obtain ⟨rfl, -, -⟩ := h
    exact hx
  | t :: src, kept, done, rest, c, d2, s2, c2, h, x, hx => by
    rw [mergeGo] at h
    by_cases hsel : sel t
    · rw [if_pos hsel] at h
      rcases hff : ffwd t rest with e | ⟨pre, post⟩
      · rw [hff, exceptBindErr] at h
        exact absurd h (by simp)
      · rw [hff, exceptBindOk] at h
        have hsplit := ffwd_append t rest pre post hff
        rcases post with _ | ⟨p, ps⟩
        · refine mergeGo_dest_mono sel src kept
            (done ++ pre ++ [{ t with id := some c }]) [] (c + 1)
            d2 s2 c2 h x ?_
          have hx' : x ∈ done ++ pre := by
            rw [List.append_nil] at hsplit
            rw [hsplit]
            exact hx
          simp only [List.append_nil, List.mem_append] at hx' ⊢
          tauto
        · refine mergeGo_dest_mono sel src kept (done ++ pre ++ [t])
            (p :: ps) c d2 s2 c2 h x ?_
          rw [← hsplit] at hx
          simp only [List.mem_append, List.mem_singleton, List.mem_cons] at hx ⊢
          tauto
    · rw [if_neg hsel] at h
      exact mergeGo_dest_mono sel src (kept ++ [t]) done rest c d2 s2 c2 h x hx

theorem qget_qset (qs : Queues) (p : TaskPriority) (k : QKind)
    (p' : TaskPriority) (k' : QKind) (l : List SchedulerTask) :
    qget (qset qs p' k' l) p k =
      if p = p' ∧ k = k' then l else qget qs p k := by
  cases p <;> cases k <;> cases p' <;> cases k' <;> simp [qget, qset]

/-- `Scheduler.onPriorityChange` (`scheduler.ts` lines 283-303): look up
the signal's registered priority (throwing on an unregistered signal);
return if unchanged; otherwise, for each kind (0 then 1), merge from
`queues[oldPriority][kind]` into `queues[signal.priority][kind]` exactly
the tasks whose `options.signal` is this signal; update the registry.
`newPrio` is `signal.priority` at the time the `prioritychange` event
fires. -/
def onPriorityChangeW (w : World) (sid : Nat) (newPrio : TaskPriority) :
    Except String World :=
  match w.registry.lookup sid with
  | none => .error "Attempting to change priority on an unregistered signal"
  | some oldPriority =>
    if oldPriority = newPrio then .ok w
    else do
      let sel : SchedulerTask → Bool := fun t => decide (t.sig = some sid)
      let r0 ← mergeE sel (qget w.queues newPrio .cont)
        (qget w.queues oldPriority .cont) w.counter
      let qs0 := qset (qset w.queues newPrio .cont r0.1) oldPriority .cont
        r0.2.1
      let r1 ← mergeE sel (qget qs0 newPrio .fresh)
        (qget qs0 oldPriority .fresh) r0.2.2
      let qs1 := qset (qset qs0 newPrio .fresh r1.1) oldPriority .fresh
        r1.2.1
      .ok { w with
            queues := qs1,
            counter := r1.2.2,
            registry := w.registry.map (fun e =>
              if e.1 = sid then (sid, newPrio) else e) }

/-- A task submitted with the explicit priority `"user-visible"` and a
signal (signal 0), queued at its explicit priority. -/
def c3T : SchedulerTask :=
  { tid := 20, cb := 0, prio := some .userVisible, sig := some 0, delay := 0,
    isContinuation := false, id := some 1 }

/-- A world where signal 0 is a TaskSignal registered at `user-visible`
and `c3T` sits in the user-visible fresh-task queue. -/
def c3Before : World :=
  { initW [{ aborted := false, reason := 0, priority := some .userVisible }]
    with
    queues := { emptyQueues with uvTask := [c3T] },
    counter := 2,
    registry := [(0, .userVisible)] }

/-- `c3Before` after `onPriorityChange` for signal 0 moving to
`background`: the merge moved `c3T` into the background queue (and, the
destination being empty, `push` also reassigned its sequence id). -/
def c3After : World :=
  { c3Before with
    queues := { emptyQueues with bgTask := [{ c3T with id := some 2 }] },
    counter := 3,
    registry := [(0, .background)] }

/-- C3, counterexample: a task with an explicit `options.priority` IS
moved to a different priority's queues by a `prioritychange` on its
signal, when its explicit priority coincides with the signal's old
registered priority — the migration selector is only
`task.options.signal === signal` and never consults `options.priority`.
Here `c3T` (explicit priority user-visible, signal 0 registered at
user-visible) ends up in the background fresh-task queue. -/
theorem explicit_priority_task_migrates :
    c3T.prio = some .userVisible ∧
    onPriorityChangeW c3Before 0 .background = .ok c3After ∧
    (qget c3After.queues .background .fresh).map SchedulerTask.tid = [20] ∧
    qget c3After.queues .userVisible .fresh = [] := by
  decide

/-- C3 (amended): an explicit `options.priority` is used for the task
alone — the task is enqueued at the explicit priority whatever its
signal's priority is — and a later `prioritychange` on the task's signal
does not move a task sitting at a priority other than the signal's old
registered priority; but a task whose queue priority equals the signal's
old registered priority is migrated, because the merge selector matches
on the signal alone. -/
theorem explicit_priority_wins_and_stays :
    (∀ (w : World) (t : SchedulerTask) (p : TaskPriority),
      t.prio = some p →
      qget (pushTaskW w t).queues p
          (if t.isContinuation then .cont else .fresh) =
        qget w.queues p (if t.isContinuation then .cont else .fresh) ++
          [{ t with id := some w.counter }]) ∧
    (∀ (w : World) (sid : Nat) (newPrio old : TaskPriority) (w2 : World)
       (p : TaskPriority) (k : QKind) (t : SchedulerTask),
      w.registry.lookup sid = some old →
      onPriorityChangeW w sid newPrio = .ok w2 →
      p ≠ old → t ∈ qget w.queues p k → t ∈ qget w2.queues p k) := by
  constructor
  · intro w t p hprio
    simp only [pushTaskW, hprio, qpush]
    rw [qget_qset]
    simp
  · intro w sid newPrio old w2 p k t hreg hrun hne hmem
    rw [onPriorityChangeW] at hrun
    simp only [hreg] at hrun
    by_cases hold : old = newPrio
    · rw [if_pos hold] at hrun
      obtain rfl : w = w2 := by
        simpa using hrun
      exact hmem
    · rw [if_neg hold] at hrun
      rcases h0 : mergeE (fun t => decide (t.sig = some sid))
          (qget w.queues newPrio .cont) (qget w.queues old .cont)
          w.counter with e | ⟨d0, s0, c0⟩
      · rw [h0, exceptBindErr] at hrun
        exact absurd hrun (by simp)
      · rw [h0, exceptBindOk] at hrun
        rcases h1 : mergeE (fun t => decide (t.sig = some sid))
            (qget (qset (qset w.queues newPrio .cont d0) old .cont s0)
              newPrio .fresh)
            (qget (qset (qset w.queues newPrio .cont d0) old .cont s0)
              old .fresh) c0 with e | ⟨d1, s1, c1⟩
        · rw [h1, exceptBindErr] at hrun
          exact absurd hrun (by simp)
        · rw [h1, exceptBindOk] at hrun
          simp only [Except.ok.injEq] at hrun
          subst hrun
          show t ∈ qget (qset (qset (qset (qset w.queues newPrio .cont d0)
            old .cont s0) newPrio .fresh d1) old .fresh s1) p k
          rw [qget_qset, if_neg (by tauto), qget_qset]
          by_cases hpn : p = newPrio ∧ k = QKind.fresh
          · rw [if_pos hpn]
            obtain ⟨rfl, rfl⟩ := hpn
            refine mergeGo_dest_mono _ _ _ [] _ _ d1 s1 c1 h1 t ?_
            rw [List.nil_append, qget_qset, if_neg (by tauto), qget_qset]
            by_cases hpc : p = p ∧ QKind.fresh = QKind.cont
            · exact absurd hpc.2 (by simp)
            · rw [if_neg hpc]
              exact hmem
          · rw [if_neg hpn, qget_qset, if_neg (by tauto), qget_qset]
            by_cases hpc : p = newPrio ∧ k = QKind.cont
            · rw [if_pos hpc]
              obtain ⟨rfl, rfl⟩ := hpc
              exact mergeGo_dest_mono _ _ _ [] _ _ d0 s0 c0 h0 t
                (by rw [List.nil_append]; exact hmem)
            · rw [if_neg hpc]
              exact hmem

/-- A task with explicit priority `"user-blocking"` and signal 0, queued
at user-blocking while signal 0 is registered at user-visible. -/
def c3wT : SchedulerTask :=
  { tid := 30, cb := 0, prio := some .userBlocking, sig := some 0, delay := 0,
    isContinuation := false, id := some 1 }

/-- The world for the C3 witness. -/
def c3wBefore : World :=
  { initW [{ aborted := false, reason := 0, priority := some .userVisible }]
    with
    queues := { emptyQueues with ubTask := [c3wT] },
    counter := 2,
    registry := [(0, .userVisible)] }

/-- `c3wBefore` after the user-visible → background migration of signal 0:
only the registry entry changes (signal 0 has no queued tasks). -/
def c3wAfter : World := { c3wBefore with registry := [(0, .background)] }

/-- C3 witness: the push part at a concrete world, and the migration part
on `c3wBefore` — signal 0 migrates user-visible → background, and `c3wT`
(explicit user-blocking ≠ old user-visible) stays where it is. -/
theorem explicit_priority_wins_and_stays_witness :
    qget (pushTaskW c3wBefore c3wT).queues .userBlocking .fresh =
      qget c3wBefore.queues .userBlocking .fresh ++
        [{ c3wT with id := some c3wBefore.counter }] ∧
    c3wT ∈ qget c3wAfter.queues .userBlocking .fresh := by
  obtain ⟨ha, hb⟩ := explicit_priority_wins_and_stays
  have hconc : onPriorityChangeW c3wBefore 0 .background = .ok c3wAfter := by
    decide
  exact ⟨ha c3wBefore c3wT .userBlocking rfl,
    hb c3wBefore 0 .background .userVisible c3wAfter .userBlocking .fresh
      c3wT (by decide) hconc (by decide) (by decide)⟩

-- ### Claim C5: pending host callbacks

/-- The host callbacks that are still pending: created, not canceled, not
yet run. -/
def pendingL (hcs : List HostCB) : List HostCB :=
  hcs.filter (fun h => !h.canceled && !h.fired)

/-- The pending scheduler (dispatch) callbacks — the `HostCallback`s armed
through `scheduleHostCallbackIfNeeded`, as opposed to the per-task delay
timers. -/
def liveD (hcs : List HostCB) : List HostCB :=
  hcs.filter (fun h => !h.isDelay && !h.canceled && !h.fired)

/-- The contents of the `pendingHostCallback` slot as a list of handles. -/
def optList : Option Nat → List Nat
  | none => []
  | some x => [x]

/-- The host-callback bookkeeping invariant: handles are bounded by the
allocator and pairwise distinct; the pending dispatch callbacks are
exactly the content of the `pendingHostCallback` slot; and every delay
handle recorded on a task points at a delay callback. -/
def HcInv (w : World) : Prop :=
  (∀ h ∈ w.hcs, h.hid < w.nextHid) ∧
  (w.hcs.map HostCB.hid).Nodup ∧
  ((liveD w.hcs).map HostCB.hid = optList w.pendingHostCallback) ∧
  (∀ m ∈ w.tasks, ∀ x, m.delayHc = some x →
    ∃ h ∈ w.hcs, h.hid = x ∧ h.isDelay = true)

theorem liveD_append (l1 l2 : List HostCB) :
    liveD (l1 ++ l2) = liveD l1 ++ liveD l2 := by
  simp [liveD]

theorem hids_markCanceled (hcs : List HostCB) (x : Nat) :
    (markCanceled hcs x).map HostCB.hid = hcs.map HostCB.hid := by
  induction hcs with
  | nil => rfl
  | cons h hs ih =>
    by_cases hx : h.hid = x <;> simp [markCanceled, hx] at ih ⊢ <;>
      exact ih

theorem hids_markFired (hcs : List HostCB) (x : Nat) :
    (markFired hcs x).map HostCB.hid = hcs.map HostCB.hid := by
  induction hcs with
  | nil => rfl
  | cons h hs ih =>
    by_cases hx : h.hid = x <;> simp [markFired, hx] at ih ⊢ <;>
      exact ih

theorem liveD_markCanceled (hcs : List HostCB) (x : Nat) :
    liveD (markCanceled hcs x) =
      (liveD hcs).filter (fun h => h.hid ≠ x) := by
  induction hcs with
  | nil => rfl
  | cons h hs ih =>
    by_cases hx : h.hid = x <;>
      by_cases hd : h.isDelay <;> by_cases hc : h.canceled <;>
      by_cases hf : h.fired <;>
      simp [markCanceled, liveD, List.filter_cons, hx, hd, hc, hf] at ih ⊢ <;>
      exact ih

theorem liveD_markFired (hcs : List HostCB) (x : Nat) :
    liveD (markFired hcs x) =
      (liveD hcs).filter (fun h => h.hid ≠ x) := by
  induction hcs with
  | nil => rfl
  | cons h hs ih =>
    by_cases hx : h.hid = x <;>
      by_cases hd : h.isDelay <;> by_cases hc : h.canceled <;>
      by_cases hf : h.fired <;>
      simp [markFired, liveD, List.filter_cons, hx, hd, hc, hf] at ih ⊢ <;>
      exact ih

theorem hids_markMany (hcs : List HostCB) (xs : List Nat) :
    (hcs.map (fun h =>
      if h.hid ∈ xs then { h with canceled := true } else h)).map
        HostCB.hid = hcs.map HostCB.hid := by
  induction hcs with
  | nil => rfl
  | cons h hs ih =>
    by_cases hx : h.hid ∈ xs <;> simp [hx] at ih ⊢ <;> exact ih

theorem liveD_markMany (hcs : List HostCB) (xs : List Nat) :
    liveD (hcs.map (fun h =>
      if h.hid ∈ xs then { h with canceled := true } else h)) =
      (liveD hcs).filter (fun h => !decide (h.hid ∈ xs)) := by
  induction hcs with
  | nil => rfl
  | cons h hs ih =>
    by_cases hx : h.hid ∈ xs <;>
      by_cases hd : h.isDelay <;> by_cases hc : h.canceled <;>
      by_cases hf : h.fired <;>
      simp [liveD, List.filter_cons, hx, hd, hc, hf] at ih ⊢ <;>
      exact ih

/-- Mapped task updates that do not touch `delayHc` transport the
delay-handle clause of `HcInv`. -/
theorem delayHc_of_map {tasks : List TaskMeta} {f : TaskMeta → TaskMeta}
    (hf : ∀ m, (f m).delayHc = m.delayHc ∨ (f m).delayHc = none) :
    ∀ m2 ∈ tasks.map f, ∀ x, m2.delayHc = some x →
    ∃ m ∈ tasks, m.delayHc = some x := by
  intro m2 hm2 x hx
  obtain ⟨m, hm, rfl⟩ := List.mem_map.mp hm2
  rcases hf m with h | h
  · exact ⟨m, hm, by rw [← h, hx]⟩
  · rw [h] at hx
    cases hx

/-- The slot-free part of `HcInv`. -/
def HcInvCore (w : World) : Prop :=
  (∀ h ∈ w.hcs, h.hid < w.nextHid) ∧
  (w.hcs.map HostCB.hid).Nodup ∧
  (∀ m ∈ w.tasks, ∀ x, m.delayHc = some x →
    ∃ h ∈ w.hcs, h.hid = x ∧ h.isDelay = true)

theorem HcInv.core {w : World} (h : HcInv w) : HcInvCore w :=
  ⟨h.1, h.2.1, h.2.2.2⟩

theorem hcOf_spec {w : World} {hid : Nat} {hc : HostCB}
    (h : hcOf w hid = some hc) : hc ∈ w.hcs ∧ hc.hid = hid := by
  refine ⟨List.mem_of_find?_eq_some h, ?_⟩
  have := List.find?_some h
  simpa using this

theorem mark_image_canceled {hcs : List HostCB} {h : HostCB} (hm : h ∈ hcs)
    (x : Nat) : ∃ h2 ∈ markCanceled hcs x,
      h2.hid = h.hid ∧ h2.isDelay = h.isDelay := by
  by_cases hx : h.hid = x
  · exact ⟨{ h with canceled := true },
      List.mem_map.mpr ⟨h, hm, by simp [hx]⟩, rfl, rfl⟩
  · exact ⟨h, List.mem_map.mpr ⟨h, hm, by simp [hx]⟩, rfl, rfl⟩

theorem mark_image_fired {hcs : List HostCB} {h : HostCB} (hm : h ∈ hcs)
    (x : Nat) : ∃ h2 ∈ markFired hcs x,
      h2.hid = h.hid ∧ h2.isDelay = h.isDelay := by
  by_cases hx : h.hid = x
  · exact ⟨{ h with fired := true },
      List.mem_map.mpr ⟨h, hm, by simp [hx]⟩, rfl, rfl⟩
  · exact ⟨h, List.mem_map.mpr ⟨h, hm, by simp [hx]⟩, rfl, rfl⟩

theorem mark_image_many {hcs : List HostCB} {h : HostCB} (hm : h ∈ hcs)
    (xs : List Nat) : ∃ h2 ∈ hcs.map (fun g =>
      if g.hid ∈ xs then { g with canceled := true } else g),
      h2.hid = h.hid ∧ h2.isDelay = h.isDelay := by
  by_cases hx : h.hid ∈ xs
  · exact ⟨{ h with canceled := true },
      List.mem_map.mpr ⟨h, hm, by simp [hx]⟩, rfl, rfl⟩
  · exact ⟨h, List.mem_map.mpr ⟨h, hm, by simp [hx]⟩, rfl, rfl⟩

/-- Allocating a fresh dispatch callback into an empty live set
establishes the invariant with the new slot. -/
theorem HcInv_allocate (w : World) (b : Bool)
    (h1 : ∀ h ∈ w.hcs, h.hid < w.nextHid)
    (h2 : (w.hcs.map HostCB.hid).Nodup)
    (h4 : ∀ m ∈ w.tasks, ∀ x, m.delayHc = some x →
      ∃ h ∈ w.hcs, h.hid = x ∧ h.isDelay = true)
    (hlive : liveD w.hcs = []) :
    HcInv { w with
      pendingHostCallback := some w.nextHid,
      hcs := w.hcs ++
        [{ hid := w.nextHid, isDelay := false, forTask := none, idle := b,
           canceled := false, fired := false }],
      nextHid := w.nextHid + 1 } := by
  refine ⟨?_, ?_, ?_, ?_⟩
  · intro g hg
    simp only [List.mem_append, List.mem_singleton] at hg
    rcases hg with hg | rfl
    · exact Nat.lt_succ_of_lt (h1 g hg)
    · exact Nat.lt_succ_self _
  · show ((w.hcs ++ _).map HostCB.hid).Nodup
    rw [List.map_append]
    refine List.Nodup.append h2 (List.nodup_singleton _) ?_
    intro a ha hb
    simp only [List.map_cons, List.map_nil, List.mem_singleton] at hb
    subst hb
    obtain ⟨g, hg, hga⟩ := List.mem_map.mp ha
    exact absurd hga (Nat.ne_of_lt (h1 g hg))
  · show (liveD (w.hcs ++ _)).map HostCB.hid = optList (some w.nextHid)
    rw [liveD_append, hlive, List.nil_append]
    simp [liveD, optList]
  · intro m hm x hx
    obtain ⟨g, hg, hgx, hgd⟩ := h4 m hm x hx
    exact ⟨g, List.mem_append_left _ hg, hgx, hgd⟩

/-- Canceling the slot's callback and clearing the slot keeps the core
invariant and empties the live dispatch set. -/
theorem HcInv_cancelSlot (w : World) (hid : Nat) (h : HcInv w)
    (hslot : w.pendingHostCallback = some hid) :
    (∀ g ∈ markCanceled w.hcs hid, g.hid < w.nextHid) ∧
    ((markCanceled w.hcs hid).map HostCB.hid).Nodup ∧
    (∀ m ∈ w.tasks, ∀ x, m.delayHc = some x →
      ∃ g ∈ markCanceled w.hcs hid, g.hid = x ∧ g.isDelay = true) ∧
    liveD (markCanceled w.hcs hid) = [] := by
  obtain ⟨h1, h2, h3, h4⟩ := h
  have hl3 : (liveD w.hcs).map HostCB.hid = [hid] := by
    rw [hslot] at h3
    exact h3
  refine ⟨?_, ?_, ?_, ?_⟩
  · intro g hg
    obtain ⟨g0, hg0, rfl⟩ := List.mem_map.mp hg
    have := h1 g0 hg0
    by_cases hx : g0.hid = hid <;> simp [hx] <;> omega
  · rw [hids_markCanceled]
    exact h2
  · intro m hm x hx
    obtain ⟨g, hg, hgx, hgd⟩ := h4 m hm x hx
    obtain ⟨g2, hg2, hg2x, hg2d⟩ := mark_image_canceled hg hid
    exact ⟨g2, hg2, by rw [hg2x, hgx], by rw [hg2d, hgd]⟩
  · rw [liveD_markCanceled]
    refine List.filter_eq_nil_iff.mpr ?_
    intro g hg
    have : g.hid ∈ (liveD w.hcs).map HostCB.hid :=
      List.mem_map_of_mem HostCB.hid hg
    rw [hl3] at this
    simp only [List.mem_singleton] at this
    simp [this]

/-- `scheduleHostCallbackIfNeeded` preserves the invariant. -/
theorem HcInv_shcin (ia : Bool) {w : World} (h : HcInv w) :
    HcInv (scheduleHostCallbackIfNeeded ia w) := by
  obtain ⟨h1, h2, h3, h4⟩ := h
  rcases hnp : nextTaskPriority w.queues with _ | ⟨p, k⟩
  · simpa only [scheduleHostCallbackIfNeeded, hnp] using
      (⟨h1, h2, h3, h4⟩ : HcInv w)
  · rcases hslot : w.pendingHostCallback with _ | hid
    · have hlive : liveD w.hcs = [] := by
        rw [hslot] at h3
        exact List.map_eq_nil_iff.mp h3
      simp only [scheduleHostCallbackIfNeeded, hnp, hslot]
      exact HcInv_allocate w _ h1 h2 h4 hlive
    · by_cases hidle : p ≠ TaskPriority.background ∧ isIdleHcW w hid
      · obtain ⟨c1, c2, c4, clive⟩ :=
          HcInv_cancelSlot w hid ⟨h1, h2, h3, h4⟩ hslot
        simp only [scheduleHostCallbackIfNeeded, hnp, hslot, if_pos hidle]
        exact HcInv_allocate { w with hcs := markCanceled w.hcs hid } _
          c1 c2 c4 clive
      · simp only [scheduleHostCallbackIfNeeded, hnp, hslot, if_neg hidle]
        exact ⟨h1, h2, h3, h4⟩

/-- `runNextTaskW` touches only queues, task promises/listeners and the
invocation log; the callback bookkeeping is untouched. -/
theorem HcInv_runNextTaskW (cbRes : Nat → Except Nat Nat) {w : World}
    (h : HcInv w) : HcInv (runNextTaskW cbRes w) := by
  obtain ⟨h1, h2, h3, h4⟩ := h
  rcases hrun : runNextTaskF (abW w) (totalLen w.queues + 1) w.queues
    with ⟨_ | t, qs'⟩
  · simp only [runNextTaskW, hrun]
    exact ⟨h1, h2, h3, h4⟩
  · simp only [runNextTaskW, hrun]
    refine ⟨h1, h2, h3, ?_⟩
    intro m hm x hx
    have step1 : ∃ m1 ∈ (match cbRes t.cb with
        | .ok v => settleTask w.tasks t.tid (.resolved v)
        | .error e => settleTask w.tasks t.tid (.rejected e)),
        m1.delayHc = some x := by
      rw [detachListener] at hm
      exact delayHc_of_map (fun m => by
        by_cases hmt : m.tid = t.tid <;> simp [hmt]) m hm x hx
    obtain ⟨m1, hm1, hx1⟩ := step1
    have step2 : ∃ m0 ∈ w.tasks, m0.delayHc = some x := by
      rcases hcb : cbRes t.cb with v | e <;> rw [hcb] at hm1 <;>
        exact delayHc_of_map (fun m => by
          by_cases hmt : m.tid = t.tid <;>
            by_cases hp : m.promise = PState.pending <;> simp [hmt, hp])
          m1 hm1 x hx1
    obtain ⟨m0, hm0, hx0⟩ := step2
    exact h4 m0 hm0 x hx0

/-- `pushTaskW` only touches queues, counter and registry. -/
theorem HcInv_pushTaskW {w : World} (h : HcInv w) (t : SchedulerTask) :
    HcInv (pushTaskW w t) := by
  obtain ⟨h1, h2, h3, h4⟩ := h
  exact ⟨h1, h2, h3, h4⟩

/-- The entry callback preserves the invariant whenever no dispatch
callback is live (which holds at every real entry: the fired callback was
just consumed). -/
theorem HcInv_entry (ia : Bool) (cbRes : Nat → Except Nat Nat) {w : World}
    (hc : HcInvCore w) (hlive : liveD w.hcs = []) :
    HcInv (schedulerEntryCallback ia cbRes w) := by
  have h0 : HcInv { w with pendingHostCallback := none } := by
    refine ⟨hc.1, hc.2.1, ?_, hc.2.2⟩
    show (liveD w.hcs).map HostCB.hid = optList none
    rw [hlive]
    rfl
  exact HcInv_shcin ia (HcInv_runNextTaskW cbRes h0)

/-- Submission preserves the invariant. -/
theorem HcInv_submit (ia : Bool) (cb : Nat) (sigArg : Option Nat)
    (prioArg : Option TaskPriority) (delay : Nat) (isCont : Bool)
    {w : World} (h : HcInv w) :
    HcInv (submitW ia w cb sigArg prioArg delay isCont) := by
  obtain ⟨h1, h2, h3, h4⟩ := h
  by_cases habort : (match sigArg with
    | some sid => sigAbortedW w sid
    | none => false) = true
  · simp only [submitW, habort, if_true]
    refine ⟨h1, h2, h3, ?_⟩
    intro m hm x hx
    simp only [List.mem_append, List.mem_singleton] at hm
    rcases hm with hm | rfl
    · exact h4 m hm x hx
    · cases hx
  · simp only [submitW, habort, Bool.false_eq_true, if_false]
    by_cases hdel : 0 < delay
    · simp only [if_pos hdel]
      refine ⟨?_, ?_, ?_, ?_⟩
      · intro g hg
        simp only [List.mem_append, List.mem_singleton] at hg
        rcases hg with hg | rfl
        · exact Nat.lt_succ_of_lt (h1 g hg)
        · exact Nat.lt_succ_self _
      · rw [List.map_append]
        refine List.Nodup.append h2 (List.nodup_singleton _) ?_
        intro a ha hb
        simp only [List.map_cons, List.map_nil, List.mem_singleton] at hb
        subst hb
        obtain ⟨g, hg, hga⟩ := List.mem_map.mp ha
        exact absurd hga (Nat.ne_of_lt (h1 g hg))
      · rw [liveD_append]
        rw [show liveD [(⟨w.nextHid, true, some w.nextTid, false, false, false⟩ : HostCB)] = [] from rfl]
        rw [List.append_nil]
        exact h3
      · intro m hm x hx
        simp only [List.mem_append, List.mem_singleton] at hm
        rcases hm with hm | rfl
        · obtain ⟨g, hg, hgx, hgd⟩ := h4 m hm x hx
          exact ⟨g, List.mem_append_left _ hg, hgx, hgd⟩
        · obtain rfl : w.nextHid = x := Option.some.inj hx
          exact ⟨⟨w.nextHid, true, some w.nextTid, false, false, false⟩,
            List.mem_append_right _ (by simp), rfl, rfl⟩
    · simp only [if_neg hdel]
      apply HcInv_shcin
      apply HcInv_pushTaskW
      refine ⟨h1, h2, h3, ?_⟩
      intro m hm x hx
      simp only [List.mem_append, List.mem_singleton] at hm
      rcases hm with hm | rfl
      · exact h4 m hm x hx
      · cases hx

/-- Abort preserves the invariant: it only cancels per-task delay
callbacks, which are never the pending dispatch callback. -/
theorem HcInv_abort (sid r : Nat) {w : World} (h : HcInv w) :
    HcInv (abortSignalW w sid r) := by
  obtain ⟨h1, h2, h3, h4⟩ := h
  rcases hs : w.sigs[sid]? with _ | s
  · simp only [abortSignalW, hs]
    exact ⟨h1, h2, h3, h4⟩
  · by_cases hab : s.aborted
    · simp only [abortSignalW, hs, hab, if_true]
      exact ⟨h1, h2, h3, h4⟩
    · simp only [abortSignalW, hs, hab, Bool.false_eq_true, if_false]
      refine ⟨?_, ?_, ?_, ?_⟩
      · intro g hg
        obtain ⟨g0, hg0, rfl⟩ := List.mem_map.mp hg
        have := h1 g0 hg0
        by_cases hx : g0.hid ∈ w.tasks.filterMap (fun m =>
          if m.sig = some sid ∧ m.abortCallback then m.delayHc else none) <;>
          simp [hx] <;> omega
      · rw [hids_markMany]
        exact h2
      · rw [liveD_markMany]
        have hkeep : ∀ g ∈ liveD w.hcs,
            (!decide (g.hid ∈ w.tasks.filterMap (fun m =>
              if m.sig = some sid ∧ m.abortCallback then m.delayHc
              else none))) = true := by
          intro g hg
          simp only [Bool.not_eq_true', decide_eq_false_iff_not]
          intro hmem
          obtain ⟨m, hm, hsome⟩ := List.mem_filterMap.mp hmem
          by_cases hcond : m.sig = some sid ∧ m.abortCallback
          · rw [if_pos hcond] at hsome
            obtain ⟨hD, hDmem, hDhid, hDisD⟩ := h4 m hm g.hid hsome
            have hgmem : g ∈ w.hcs ∧
                (!g.isDelay && !g.canceled && !g.fired) = true :=
              List.mem_filter.mp hg
            have : g = hD := List.inj_on_of_nodup_map h2 hgmem.1 hDmem
              (by rw [hDhid])
            rw [this] at hgmem
            rw [hDisD] at hgmem
            simp at hgmem
          · rw [if_neg hcond] at hsome
            cases hsome
        rw [List.filter_eq_self.mpr hkeep]
        exact h3
      · intro m2 hm2 x hx
        have : ∃ m0 ∈ w.tasks, m0.delayHc = some x :=
          delayHc_of_map (fun m => by
            by_cases hcond : m.sig = some sid ∧ m.abortCallback <;>
              simp [hcond]) m2 hm2 x hx
        obtain ⟨m0, hm0, hx0⟩ := this
        obtain ⟨g, hg, hgx, hgd⟩ := h4 m0 hm0 x hx0
        obtain ⟨g2, hg2, hg2x, hg2d⟩ := mark_image_many hg _
        exact ⟨g2, hg2, by rw [hg2x, hgx], by rw [hg2d, hgd]⟩

theorem hid_lt_of_markFired {hcs : List HostCB} {n x : Nat}
    (h1 : ∀ g ∈ hcs, g.hid < n) : ∀ g ∈ markFired hcs x, g.hid < n := by
  intro g hg
  have hmm : g.hid ∈ (markFired hcs x).map HostCB.hid :=
    List.mem_map_of_mem _ hg
  rw [hids_markFired] at hmm
  obtain ⟨g0, hg0, he⟩ := List.mem_map.mp hmm
  rw [← he]
  exact h1 g0 hg0

/-- Firing a host callback preserves the invariant. -/
theorem HcInv_fire (ia : Bool) (cbRes : Nat → Except Nat Nat) (hid : Nat)
    {w : World} (h : HcInv w) : HcInv (fireHcW ia cbRes w hid) := by
  obtain ⟨h1, h2, h3, h4⟩ := h
  rcases hhc : hcOf w hid with _ | hc
  · simp only [fireHcW, hhc]
    exact ⟨h1, h2, h3, h4⟩
  · by_cases hcf : hc.canceled = true ∨ hc.fired = true
    · simp only [fireHcW, hhc, if_pos hcf]
      exact ⟨h1, h2, h3, h4⟩
    · obtain ⟨hmem, hhid⟩ := hcOf_spec hhc
      push_neg at hcf
      have hi1 : ∀ g ∈ markFired w.hcs hid, g.hid < w.nextHid :=
        hid_lt_of_markFired h1
      have hi2 : ((markFired w.hcs hid).map HostCB.hid).Nodup := by
        rw [hids_markFired]
        exact h2
      have hi4 : ∀ m ∈ w.tasks, ∀ x, m.delayHc = some x →
          ∃ g ∈ markFired w.hcs hid, g.hid = x ∧ g.isDelay = true := by
        intro m hm x hx
        obtain ⟨g, hg, hgx, hgd⟩ := h4 m hm x hx
        obtain ⟨g2, hg2, hg2x, hg2d⟩ := mark_image_fired hg hid
        exact ⟨g2, hg2, by rw [hg2x, hgx], by rw [hg2d, hgd]⟩
      by_cases hd : hc.isDelay = true
      · have hlive1 : liveD (markFired w.hcs hid) = liveD w.hcs := by
          rw [liveD_markFired]
          refine List.filter_eq_self.mpr ?_
          intro g hg
          simp only [ne_eq, decide_eq_true_eq]
          intro hgh
          have hgmem := (List.mem_filter.mp hg).1
          have hglive := (List.mem_filter.mp hg).2
          have hge : g = hc :=
            List.inj_on_of_nodup_map h2 hgmem hmem (by rw [hgh, hhid])
          rw [hge, hd] at hglive
          simp at hglive
        have hw1 : HcInv { w with hcs := markFired w.hcs hid } := by
          refine ⟨hi1, hi2, ?_, hi4⟩
          show (liveD (markFired w.hcs hid)).map HostCB.hid =
            optList w.pendingHostCallback
          rw [hlive1]
          exact h3
        rcases hft : hc.forTask with _ | tid
        · simp only [fireHcW, hhc, if_neg (not_or.mpr hcf),
            if_pos hd, hft]
          exact hw1
        · rcases hrec : (w.tasks.find? (fun m => m.tid == tid)).bind
              (fun m => m.pendingRecord) with _ | record
          · simp only [fireHcW, hhc, if_neg (not_or.mpr hcf),
              if_pos hd, hft, hrec]
            exact hw1
          · have hw2 : HcInv (pushTaskW
                { w with
                  hcs := markFired w.hcs hid,
                  tasks := w.tasks.map (fun m =>
                    if m.tid = tid then
                      { m with delayHc := none, pendingRecord := none }
                    else m) } record) := by
              apply HcInv_pushTaskW
              refine ⟨hi1, hi2, ?_, ?_⟩
              · show (liveD (markFired w.hcs hid)).map HostCB.hid =
                  optList w.pendingHostCallback
                rw [hlive1]
                exact h3
              · intro m2 hm2 x hx
                have hex : ∃ m0 ∈ w.tasks, m0.delayHc = some x :=
                  delayHc_of_map (fun m => by
                    by_cases hmt : m.tid = tid <;> simp [hmt]) m2 hm2 x hx
                obtain ⟨m0, hm0, hx0⟩ := hex
                exact hi4 m0 hm0 x hx0
            simp only [fireHcW, hhc, if_neg (not_or.mpr hcf),
              if_pos hd, hft, hrec]
            rcases hnp : w.pendingHostCallback with _ | ph
            · have hliveE : liveD (markFired w.hcs hid) = [] := by
                rw [hlive1]
                rw [hnp] at h3
                exact List.map_eq_nil_iff.mp h3
              refine HcInv_entry ia cbRes hw2.core ?_
              show liveD (markFired w.hcs hid) = []
              exact hliveE
            · have hcs2 := HcInv_cancelSlot _ ph hw2 hnp
              obtain ⟨c1, c2, c4, clive⟩ := hcs2
              exact HcInv_entry ia cbRes ⟨c1, c2, c4⟩ clive
      · have hclive : hc ∈ liveD w.hcs := by
          refine List.mem_filter.mpr ⟨hmem, ?_⟩
          have e1 : hc.isDelay = false := by
            cases hb : hc.isDelay
            · rfl
            · exact absurd hb hd
          have e2 : hc.canceled = false := by
            cases hb : hc.canceled
            · rfl
            · exact absurd hb hcf.1
          have e3 : hc.fired = false := by
            cases hb : hc.fired
            · rfl
            · exact absurd hb hcf.2
          simp [e1, e2, e3]
        have hhin : hid ∈ (liveD w.hcs).map HostCB.hid :=
          List.mem_map.mpr ⟨hc, hclive, hhid⟩
        have hall : ∀ g ∈ liveD w.hcs, g.hid = hid := by
          rcases hslot : w.pendingHostCallback with _ | s
          · rw [hslot] at h3
            rw [show optList none = [] from rfl] at h3
            rw [h3] at hhin
            exact absurd hhin (List.not_mem_nil _)
          · rw [hslot] at h3
            rw [show optList (some s) = [s] from rfl] at h3
            have hse : hid = s := by
              rw [h3] at hhin
              simpa using hhin
            intro g hg
            have : g.hid ∈ (liveD w.hcs).map HostCB.hid :=
              List.mem_map_of_mem _ hg
            rw [h3] at this
            simp only [List.mem_singleton] at this
            rw [this, hse]
        have hliveE : liveD (markFired w.hcs hid) = [] := by
          rw [liveD_markFired]
          refine List.filter_eq_nil_iff.mpr ?_
          intro g hg
          simp [hall g hg]
        simp only [fireHcW, hhc, if_neg (not_or.mpr hcf),
          if_neg hd]
        refine HcInv_entry ia cbRes ⟨hi1, hi2, hi4⟩ ?_
        show liveD (markFired w.hcs hid) = []
        exact hliveE

/-- One interleaved operation preserves the invariant. -/
theorem HcInv_step (ia : Bool) (cbRes : Nat → Except Nat Nat) (op : Op)
    {w : World} (h : HcInv w) : HcInv (stepW ia cbRes w op) := by
  cases op with
  | submit cb sig prio delay isCont => exact HcInv_submit ia cb sig prio delay isCont h
  | abort sid r => exact HcInv_abort sid r h
  | fire hid => exact HcInv_fire ia cbRes hid h

/-- The fresh scheduler satisfies the invariant. -/
theorem HcInv_init (sigs : List SigState) : HcInv (initW sigs) := by
  refine ⟨?_, ?_, ?_, ?_⟩
  · intro g hg
    cases hg
  · exact List.nodup_nil
  · rfl
  · intro m hm
    cases hm

/-- Any interleaving starting from a fresh scheduler lands in an
invariant world. -/
theorem HcInv_run (ia : Bool) (cbRes : Nat → Except Nat Nat)
    (sigs : List SigState) (ops : List Op) :
    HcInv (runW ia cbRes (initW sigs) ops) := by
  have hgen : ∀ (ops : List Op) (w : World), HcInv w →
      HcInv (runW ia cbRes w ops) := by
    intro ops
    induction ops with
    | nil => intro w hw; exact hw
    | cons op rest ih =>
      intro w hw
      exact ih _ (HcInv_step ia cbRes op hw)
  exact hgen ops _ (HcInv_init sigs)

-- ### Claim C5: at most one pending host callback

/-- **C5** (counterexample): the claim says at most one host callback is
pending in the whole system, per-task delay callbacks included.  But each
delayed submission creates its own `HostCallback` (`scheduler.ts` lines
243-249) that stays pending until its timeout fires: after two delayed
`postTask` calls, two host callbacks are pending at once. -/
theorem two_delayed_tasks_two_pending_callbacks :
    (pendingL (runW false (fun n => .ok n) (initW [])
      [.submit 0 none none 5 false,
       .submit 1 none none 5 false]).hcs).length = 2 := by decide

/-- **C5** (amended): at most one *dispatch* host callback — the
scheduler's wakeup armed by `scheduleHostCallbackIfNeeded` — is pending
at any instant, and its handle is exactly the content of the
`pendingHostCallback_` slot; per-task delay callbacks are not subject to
the bound. -/
theorem at_most_one_dispatch_callback (ia : Bool)
    (cbRes : Nat → Except Nat Nat) (sigs : List SigState) (ops : List Op) :
    (liveD (runW ia cbRes (initW sigs) ops).hcs).map HostCB.hid =
      optList (runW ia cbRes (initW sigs) ops).pendingHostCallback ∧
    (liveD (runW ia cbRes (initW sigs) ops).hcs).length ≤ 1 := by
  obtain ⟨-, -, h3, -⟩ := HcInv_run ia cbRes sigs ops
  refine ⟨h3, ?_⟩
  have hlen : (liveD (runW ia cbRes (initW sigs) ops).hcs).length =
      (optList (runW ia cbRes
        (initW sigs) ops).pendingHostCallback).length := by
    rw [← h3, List.length_map]
  rw [hlen]
  cases (runW ia cbRes (initW sigs) ops).pendingHostCallback <;>
    simp [optList]

-- ### Claim C2: aborted-before-dispatch tasks reject and never run

theorem scanConcat_qset_mem {qs : Queues} (p : TaskPriority) (k : QKind)
    {l : List SchedulerTask} {r : SchedulerTask}
    (h : r ∈ scanConcat (qset qs p k l)) :
    r ∈ scanConcat qs ∨ r ∈ l := by
  cases p <;> cases k <;>
    simp only [scanConcat, qset, List.mem_append] at h ⊢ <;> tauto

theorem qget_sub_scanConcat (qs : Queues) (p : TaskPriority) (k : QKind) :
    ∀ r ∈ qget qs p k, r ∈ scanConcat qs := by
  cases p <;> cases k <;> intro r hr <;>
    simp only [qget] at hr <;>
    simp only [scanConcat, List.mem_append] <;> tauto

/-- A record pushed by `pushTask` either was already queued or is the
pushed record (with a fresh sequence id). -/
theorem pushTaskW_queues_mem {w : World} {t r : SchedulerTask}
    (h : r ∈ scanConcat (pushTaskW w t).queues) :
    r ∈ scanConcat w.queues ∨ r = { t with id := some w.counter } := by
  rcases scanConcat_qset_mem _ _ h with hold | hnew
  · exact Or.inl hold
  · rcases List.mem_append.mp hnew with hq | hs
    · exact Or.inl (qget_sub_scanConcat _ _ _ r hq)
    · exact Or.inr (List.mem_singleton.mp hs)

theorem runNextTaskF_sound (ab : SchedulerTask → Bool) :
    ∀ (fuel : Nat) (qs : Queues) (t : SchedulerTask) (qs' : Queues),
    runNextTaskF ab fuel qs = (some t, qs') →
    t ∈ scanConcat qs ∧ ab t = false := by
  intro fuel
  induction fuel with
  | zero =>
    intro qs t qs' h
    simp [runNextTaskF] at h
  | succ n ih =>
    intro qs t qs' h
    rw [runNextTaskF] at h
    rcases hp : popNext qs with _ | ⟨pk, t0, qs0⟩
    · rw [hp] at h
      simp at h
    · simp only [hp] at h
      obtain ⟨hsc, -⟩ := popNext_cons hp
      by_cases hab : ab t0 = true
      · rw [if_pos hab] at h
        have hrec := ih qs0 t qs' h
        exact ⟨by rw [hsc]; exact List.mem_cons_of_mem _ hrec.1, hrec.2⟩
      · rw [if_neg hab] at h
        obtain ⟨rfl, rfl⟩ : t0 = t ∧ qs0 = qs' := by
          simpa using h
        exact ⟨by rw [hsc]; exact List.mem_cons_self _ _,
          Bool.not_eq_true _ ▸ eq_false_of_ne_true hab⟩

theorem runNextTaskF_subset (ab : SchedulerTask → Bool) :
    ∀ (fuel : Nat) (qs : Queues) (res : Option SchedulerTask)
      (qs' : Queues),
    runNextTaskF ab fuel qs = (res, qs') →
    ∀ r ∈ scanConcat qs', r ∈ scanConcat qs := by
  intro fuel
  induction fuel with
  | zero =>
    intro qs res qs' h
    obtain ⟨-, rfl⟩ : res = none ∧ qs' = qs := by
      simpa [runNextTaskF] using h.symm
    exact fun r hr => hr
  | succ n ih =>
    intro qs res qs' h
    rw [runNextTaskF] at h
    rcases hp : popNext qs with _ | ⟨pk, t0, qs0⟩
    · rw [hp] at h
      obtain ⟨-, rfl⟩ : res = none ∧ qs' = qs := by
        simpa using h.symm
      exact fun r hr => hr
    · simp only [hp] at h
      obtain ⟨hsc, -⟩ := popNext_cons hp
      by_cases hab : ab t0 = true
      · rw [if_pos hab] at h
        intro r hr
        rw [hsc]
        exact List.mem_cons_of_mem _ (ih qs0 res qs' h r hr)
      · rw [if_neg hab] at h
        obtain ⟨-, rfl⟩ : some t0 = res ∧ qs0 = qs' := by
          simpa using h
        intro r hr
        rw [hsc]
        exact List.mem_cons_of_mem _ hr

/-- `signal.aborted` as a function of the signal list alone. -/
def sigAbortedL (sigs : List SigState) (sid : Nat) : Bool :=
  match sigs[sid]? with
  | some s => s.aborted
  | none => false

/-- `signal.reason` as a function of the signal list alone. -/
def sigReasonL (sigs : List SigState) (sid : Nat) : Nat :=
  match sigs[sid]? with
  | some s => s.reason
  | none => 0

theorem sigAbortedW_eq (w : World) (sid : Nat) :
    sigAbortedW w sid = sigAbortedL w.sigs sid := rfl

theorem sigReasonW_eq (w : World) (sid : Nat) :
    sigReasonW w sid = sigReasonL w.sigs sid := rfl

theorem sigAbortedL_set_ne {sigs : List SigState} {i j : Nat}
    (x : SigState) (h : i ≠ j) :
    sigAbortedL (sigs.set i x) j = sigAbortedL sigs j := by
  simp only [sigAbortedL, List.getElem?_set_ne h]

theorem sigReasonL_set_ne {sigs : List SigState} {i j : Nat}
    (x : SigState) (h : i ≠ j) :
    sigReasonL (sigs.set i x) j = sigReasonL sigs j := by
  simp only [sigReasonL, List.getElem?_set_ne h]

theorem sigAbortedL_set_self {sigs : List SigState} {i : Nat}
    (x : SigState) (h : i < sigs.length) :
    sigAbortedL (sigs.set i x) i = x.aborted := by
  simp only [sigAbortedL, List.getElem?_set_self h]

theorem sigReasonL_set_self {sigs : List SigState} {i : Nat}
    (x : SigState) (h : i < sigs.length) :
    sigReasonL (sigs.set i x) i = x.reason := by
  simp only [sigReasonL, List.getElem?_set_self h]

/-- The task bookkeeping invariant behind the abort guarantee: task ids
are fresh and distinct, every queued record and every pending delayed
record belongs to a registered task with the same signal, a task whose
signal aborted before its dispatch has its promise rejected with the
signal's reason, and a not-yet-dispatched task of a live signal still has
its abort listener attached and its promise pending. -/
def TInv (w : World) : Prop :=
  (∀ m ∈ w.tasks, m.tid < w.nextTid) ∧
  ((w.tasks.map TaskMeta.tid).Nodup) ∧
  (∀ r ∈ scanConcat w.queues, ∃ m ∈ w.tasks, m.tid = r.tid ∧ m.sig = r.sig) ∧
  (∀ m ∈ w.tasks, ∀ rec, m.pendingRecord = some rec →
    rec.tid = m.tid ∧ rec.sig = m.sig) ∧
  (∀ m ∈ w.tasks, ∀ sid, m.sig = some sid → sigAbortedW w sid = true →
    m.tid ∉ w.invoked → m.promise = PState.rejected (sigReasonW w sid)) ∧
  (∀ m ∈ w.tasks, ∀ sid, m.sig = some sid → sigAbortedW w sid = false →
    m.tid ∉ w.invoked → m.abortCallback = true ∧ m.promise = PState.pending)

theorem settleTask_shape (l : List TaskMeta) (tid : Nat) (st : PState) :
    ∀ m2 ∈ settleTask l tid st, ∃ m ∈ l,
      m2.tid = m.tid ∧ m2.sig = m.sig ∧
      m2.pendingRecord = m.pendingRecord ∧ m2.delayHc = m.delayHc ∧
      m2.abortCallback = m.abortCallback ∧ (m.tid ≠ tid → m2 = m) := by
  intro m2 hm2
  obtain ⟨m, hm, rfl⟩ := List.mem_map.mp hm2
  refine ⟨m, hm, ?_⟩
  by_cases h1 : m.tid = tid <;> by_cases h2 : m.promise = PState.pending <;>
    simp [h1, h2]

theorem detachListener_shape (l : List TaskMeta) (tid : Nat) :
    ∀ m2 ∈ detachListener l tid, ∃ m ∈ l,
      m2.tid = m.tid ∧ m2.sig = m.sig ∧
      m2.pendingRecord = m.pendingRecord ∧ m2.delayHc = m.delayHc ∧
      m2.promise = m.promise ∧ (m.tid ≠ tid → m2 = m) := by
  intro m2 hm2
  obtain ⟨m, hm, rfl⟩ := List.mem_map.mp hm2
  refine ⟨m, hm, ?_⟩
  by_cases h1 : m.tid = tid <;> simp [h1]

theorem settleTask_map_tid (l : List TaskMeta) (tid : Nat) (st : PState) :
    (settleTask l tid st).map TaskMeta.tid = l.map TaskMeta.tid := by
  rw [settleTask, List.map_map]
  refine List.map_congr_left ?_
  intro m _
  by_cases h1 : m.tid = tid <;> by_cases h2 : m.promise = PState.pending <;>
    simp [h1, h2]

theorem detachListener_map_tid (l : List TaskMeta) (tid : Nat) :
    (detachListener l tid).map TaskMeta.tid = l.map TaskMeta.tid := by
  rw [detachListener, List.map_map]
  refine List.map_congr_left ?_
  intro m _
  by_cases h1 : m.tid = tid <;> simp [h1]

theorem settleTask_image (l : List TaskMeta) (tid : Nat) (st : PState) :
    ∀ m ∈ l, ∃ m2 ∈ settleTask l tid st,
      m2.tid = m.tid ∧ m2.sig = m.sig := by
  intro m hm
  refine ⟨_, List.mem_map.mpr ⟨m, hm, rfl⟩, ?_⟩
  by_cases h1 : m.tid = tid <;> by_cases h2 : m.promise = PState.pending <;>
    simp [h1, h2]

theorem detachListener_image (l : List TaskMeta) (tid : Nat) :
    ∀ m ∈ l, ∃ m2 ∈ detachListener l tid,
      m2.tid = m.tid ∧ m2.sig = m.sig := by
  intro m hm
  refine ⟨_, List.mem_map.mpr ⟨m, hm, rfl⟩, ?_⟩
  by_cases h1 : m.tid = tid <;> simp [h1]

theorem TInv_pushTaskW {w : World} {t : SchedulerTask} (h : TInv w)
    (hcorr : ∃ m ∈ w.tasks, m.tid = t.tid ∧ m.sig = t.sig) :
    TInv (pushTaskW w t) := by
  obtain ⟨t1, t2, t3, t4, t5, t6⟩ := h
  refine ⟨t1, t2, ?_, t4, t5, t6⟩
  intro r hr
  rcases pushTaskW_queues_mem hr with hold | rfl
  · exact t3 r hold
  · obtain ⟨m, hm, hmt, hms⟩ := hcorr
    exact ⟨m, hm, hmt, hms⟩

theorem TInv_shcin (ia : Bool) {w : World} (h : TInv w) :
    TInv (scheduleHostCallbackIfNeeded ia w) := by
  obtain ⟨t1, t2, t3, t4, t5, t6⟩ := h
  rcases hnp : nextTaskPriority w.queues with _ | ⟨p, k⟩
  · simp only [scheduleHostCallbackIfNeeded, hnp]
    exact ⟨t1, t2, t3, t4, t5, t6⟩
  · rcases hslot : w.pendingHostCallback with _ | hid
    · simp only [scheduleHostCallbackIfNeeded, hnp, hslot]
      exact ⟨t1, t2, t3, t4, t5, t6⟩
    · by_cases hidle : p ≠ TaskPriority.background ∧ isIdleHcW w hid
      · simp only [scheduleHostCallbackIfNeeded, hnp, hslot, if_pos hidle]
        exact ⟨t1, t2, t3, t4, t5, t6⟩
      · simp only [scheduleHostCallbackIfNeeded, hnp, hslot, if_neg hidle]
        exact ⟨t1, t2, t3, t4, t5, t6⟩

theorem TInv_runNextTaskW (cbRes : Nat → Except Nat Nat) {w : World}
    (h : TInv w) : TInv (runNextTaskW cbRes w) := by
  obtain ⟨t1, t2, t3, t4, t5, t6⟩ := h
  rcases hrun : runNextTaskF (abW w) (totalLen w.queues + 1) w.queues
    with ⟨o, qs'⟩
  have hsub := runNextTaskF_subset (abW w) _ _ _ _ hrun
  rcases o with _ | t
  · simp only [runNextTaskW, hrun]
    exact ⟨t1, t2, fun r hr => t3 r (hsub r hr), t4, t5, t6⟩
  · have key : ∀ st : PState, TInv { w with
        queues := qs',
        tasks := detachListener (settleTask w.tasks t.tid st) t.tid,
        invoked := w.invoked ++ [t.tid] } := by
      intro st
      have hshape : ∀ m2 ∈ detachListener (settleTask w.tasks t.tid st)
          t.tid, ∃ m ∈ w.tasks,
          m2.tid = m.tid ∧ m2.sig = m.sig ∧
          m2.pendingRecord = m.pendingRecord ∧
          (m.tid ≠ t.tid →
            m2.promise = m.promise ∧ m2.abortCallback = m.abortCallback ∧
            m2.tid = m.tid) := by
        intro m2 hm2
        obtain ⟨m1, hm1, e1, e2, e3, e4, e5, e6⟩ :=
          detachListener_shape _ _ m2 hm2
        obtain ⟨m, hm, f1, f2, f3, f4, f5, f6⟩ :=
          settleTask_shape _ _ _ m1 hm1
        refine ⟨m, hm, by rw [e1, f1], by rw [e2, f2],
          by rw [e3, f3], ?_⟩
        intro hne
        have hm1m : m1 = m := f6 hne
        have hm2m : m2 = m1 := e6 (by rw [f1]; exact hne)
        rw [hm2m, hm1m]
        exact ⟨rfl, rfl, rfl⟩
      refine ⟨?_, ?_, ?_, ?_, ?_, ?_⟩
      · intro m2 hm2
        obtain ⟨m, hm, e1, -⟩ := hshape m2 hm2
        show m2.tid < w.nextTid
        rw [e1]
        exact t1 m hm
      · show ((detachListener (settleTask w.tasks t.tid st)
          t.tid).map TaskMeta.tid).Nodup
        rw [detachListener_map_tid, settleTask_map_tid]
        exact t2
      · intro r hr
        obtain ⟨m, hm, hmt, hms⟩ := t3 r (hsub r hr)
        obtain ⟨m1, hm1, g1, g2⟩ := settleTask_image w.tasks t.tid st m hm
        obtain ⟨m2, hm2, g3, g4⟩ := detachListener_image _ t.tid m1 hm1
        exact ⟨m2, hm2, by rw [g3, g1, hmt], by rw [g4, g2, hms]⟩
      · intro m2 hm2 rec hrec
        obtain ⟨m, hm, e1, e2, e3, -⟩ := hshape m2 hm2
        rw [e3] at hrec
        obtain ⟨g1, g2⟩ := t4 m hm rec hrec
        exact ⟨by rw [e1, g1], by rw [e2, g2]⟩
      · intro m2 hm2 sid hsig hab hni
        obtain ⟨m, hm, e1, e2, -, e4⟩ := hshape m2 hm2
        have hnis : m2.tid ∉ w.invoked ∧ m2.tid ≠ t.tid := by
          constructor
          · intro hc
            exact hni (List.mem_append_left _ hc)
          · intro hc
            exact hni (List.mem_append_right _ (by simp [hc]))
        have hne : m.tid ≠ t.tid := by
          rw [← e1]
          exact hnis.2
        obtain ⟨p1, -, -⟩ := e4 hne
        show m2.promise = PState.rejected (sigReasonW w sid)
        rw [p1]
        refine t5 m hm sid (by rw [← e2]; exact hsig) hab ?_
        rw [← e1]
        exact hnis.1
      · intro m2 hm2 sid hsig hab hni
        obtain ⟨m, hm, e1, e2, -, e4⟩ := hshape m2 hm2
        have hnis : m2.tid ∉ w.invoked ∧ m2.tid ≠ t.tid := by
          constructor
          · intro hc
            exact hni (List.mem_append_left _ hc)
          · intro hc
            exact hni (List.mem_append_right _ (by simp [hc]))
        have hne : m.tid ≠ t.tid := by
          rw [← e1]
          exact hnis.2
        obtain ⟨p1, p2, -⟩ := e4 hne
        obtain ⟨q1, q2⟩ := t6 m hm sid (by rw [← e2]; exact hsig) hab
          (by rw [← e1]; exact hnis.1)
        exact ⟨by rw [p2, q1], by rw [p1, q2]⟩
    rcases hcb : cbRes t.cb with v | e <;>
      simp only [runNextTaskW, hrun, hcb] <;> exact key _

theorem TInv_entry (ia : Bool) (cbRes : Nat → Except Nat Nat) {w : World}
    (h : TInv w) : TInv (schedulerEntryCallback ia cbRes w) := by
  have h0 : TInv { w with pendingHostCallback := none } := h
  exact TInv_shcin ia (TInv_runNextTaskW cbRes h0)


theorem TInv_submit (ia : Bool) (cb : Nat) (sigArg : Option Nat)
    (prioArg : Option TaskPriority) (delay : Nat) (isCont : Bool)
    {w : World} (h : TInv w) :
    TInv (submitW ia w cb sigArg prioArg delay isCont) := by
  obtain ⟨t1, t2, t3, t4, t5, t6⟩ := h
  have hgen : ∀ M : TaskMeta, M.tid = w.nextTid →
      (∀ m ∈ w.tasks ++ [M], m.tid < w.nextTid + 1) ∧
      ((w.tasks ++ [M]).map TaskMeta.tid).Nodup ∧
      (∀ r ∈ scanConcat w.queues, ∃ m ∈ w.tasks ++ [M],
        m.tid = r.tid ∧ m.sig = r.sig) := by
    intro M hM
    refine ⟨?_, ?_, ?_⟩
    · intro m hm
      rcases List.mem_append.mp hm with hm | hm
      · exact Nat.lt_succ_of_lt (t1 m hm)
      · rw [List.mem_singleton.mp hm, hM]
        exact Nat.lt_succ_self _
    · rw [List.map_append]
      refine List.Nodup.append t2 (by simp) ?_
      intro a ha hb
      simp only [List.map_cons, List.map_nil, List.mem_singleton] at hb
      subst hb
      obtain ⟨m, hmm, hma⟩ := List.mem_map.mp ha
      rw [hM] at hma
      exact absurd hma (Nat.ne_of_lt (t1 m hmm))
    · intro r hr
      obtain ⟨m, hm, e⟩ := t3 r hr
      exact ⟨m, List.mem_append_left _ hm, e⟩
  rcases sigArg with _ | sid0
  · simp only [submitW]
    by_cases hdel : 0 < delay
    · simp only [if_pos hdel]
      refine ⟨(hgen _ rfl).1, (hgen _ rfl).2.1, (hgen _ rfl).2.2,
        ?_, ?_, ?_⟩
      · intro m hm rec hrec
        rcases List.mem_append.mp hm with hm | hm
        · exact t4 m hm rec hrec
        · rw [List.mem_singleton.mp hm] at hrec ⊢
          obtain rfl := Option.some.inj hrec
          exact ⟨rfl, rfl⟩
      · intro m hm sid hsig hab hni
        rcases List.mem_append.mp hm with hm | hm
        · exact t5 m hm sid hsig hab hni
        · rw [List.mem_singleton.mp hm] at hsig
          cases hsig
      · intro m hm sid hsig hab hni
        rcases List.mem_append.mp hm with hm | hm
        · exact t6 m hm sid hsig hab hni
        · rw [List.mem_singleton.mp hm] at hsig
          cases hsig
    · simp only [if_neg hdel]
      apply TInv_shcin
      apply TInv_pushTaskW
      · refine ⟨(hgen _ rfl).1, (hgen _ rfl).2.1, (hgen _ rfl).2.2,
          ?_, ?_, ?_⟩
        · intro m hm rec hrec
          rcases List.mem_append.mp hm with hm | hm
          · exact t4 m hm rec hrec
          · rw [List.mem_singleton.mp hm] at hrec
            cases hrec
        · intro m hm sid hsig hab hni
          rcases List.mem_append.mp hm with hm | hm
          · exact t5 m hm sid hsig hab hni
          · rw [List.mem_singleton.mp hm] at hsig
            cases hsig
        · intro m hm sid hsig hab hni
          rcases List.mem_append.mp hm with hm | hm
          · exact t6 m hm sid hsig hab hni
          · rw [List.mem_singleton.mp hm] at hsig
            cases hsig
      · exact ⟨⟨w.nextTid, none, .pending, (none : Option Nat).isSome,
          none, none⟩,
          List.mem_append_right _ (List.mem_singleton.mpr rfl), rfl, rfl⟩
  · by_cases habort : sigAbortedW w sid0 = true
    · simp only [submitW, habort, if_true]
      refine ⟨(hgen _ rfl).1, (hgen _ rfl).2.1, (hgen _ rfl).2.2,
        ?_, ?_, ?_⟩
      · intro m hm rec hrec
        rcases List.mem_append.mp hm with hm | hm
        · exact t4 m hm rec hrec
        · rw [List.mem_singleton.mp hm] at hrec
          cases hrec
      · intro m hm sid hsig hab hni
        rcases List.mem_append.mp hm with hm | hm
        · exact t5 m hm sid hsig hab hni
        · rw [List.mem_singleton.mp hm] at hsig ⊢
          obtain rfl := Option.some.inj hsig
          rfl
      · intro m hm sid hsig hab hni
        rcases List.mem_append.mp hm with hm | hm
        · exact t6 m hm sid hsig hab hni
        · rw [List.mem_singleton.mp hm] at hsig
          obtain rfl := Option.some.inj hsig
          have hf : sigAbortedW w sid0 = false := hab
          rw [habort] at hf
          exact absurd hf (by decide)
    · simp only [submitW, habort, Bool.false_eq_true, if_false]
      by_cases hdel : 0 < delay
      · simp only [if_pos hdel]
        refine ⟨(hgen _ rfl).1, (hgen _ rfl).2.1, (hgen _ rfl).2.2,
          ?_, ?_, ?_⟩
        · intro m hm rec hrec
          rcases List.mem_append.mp hm with hm | hm
          · exact t4 m hm rec hrec
          · rw [List.mem_singleton.mp hm] at hrec ⊢
            obtain rfl := Option.some.inj hrec
            exact ⟨rfl, rfl⟩
        · intro m hm sid hsig hab hni
          rcases List.mem_append.mp hm with hm | hm
          · exact t5 m hm sid hsig hab hni
          · rw [List.mem_singleton.mp hm] at hsig
            obtain rfl := Option.some.inj hsig
            exact absurd (show sigAbortedW w sid0 = true from hab) habort
        · intro m hm sid hsig hab hni
          rcases List.mem_append.mp hm with hm | hm
          · exact t6 m hm sid hsig hab hni
          · rw [List.mem_singleton.mp hm] at hsig ⊢
            obtain rfl := Option.some.inj hsig
            exact ⟨rfl, rfl⟩
      · simp only [if_neg hdel]
        apply TInv_shcin
        apply TInv_pushTaskW
        · refine ⟨(hgen _ rfl).1, (hgen _ rfl).2.1, (hgen _ rfl).2.2,
            ?_, ?_, ?_⟩
          · intro m hm rec hrec
            rcases List.mem_append.mp hm with hm | hm
            · exact t4 m hm rec hrec
            · rw [List.mem_singleton.mp hm] at hrec
              cases hrec
          · intro m hm sid hsig hab hni
            rcases List.mem_append.mp hm with hm | hm
            · exact t5 m hm sid hsig hab hni
            · rw [List.mem_singleton.mp hm] at hsig
              obtain rfl := Option.some.inj hsig
              exact absurd (show sigAbortedW w sid0 = true from hab) habort
          · intro m hm sid hsig hab hni
            rcases List.mem_append.mp hm with hm | hm
            · exact t6 m hm sid hsig hab hni
            · rw [List.mem_singleton.mp hm] at hsig ⊢
              obtain rfl := Option.some.inj hsig
              exact ⟨rfl, rfl⟩
        · exact ⟨⟨w.nextTid, some sid0, .pending,
            (some sid0 : Option Nat).isSome, none, none⟩,
            List.mem_append_right _ (List.mem_singleton.mpr rfl), rfl, rfl⟩

theorem abortMap_shape (tasks : List TaskMeta) (sid0 r : Nat) :
    ∀ m2 ∈ tasks.map (fun m =>
      if m.sig = some sid0 ∧ m.abortCallback then
        { m with
          delayHc := none
          abortCallback := false
          promise :=
            if m.promise = .pending then .rejected r else m.promise }
      else m), ∃ m ∈ tasks,
      m2.tid = m.tid ∧ m2.sig = m.sig ∧
      m2.pendingRecord = m.pendingRecord ∧
      ((m.sig = some sid0 ∧ m.abortCallback = true) →
        m2.promise =
          (if m.promise = PState.pending then PState.rejected r
            else m.promise)) ∧
      (¬(m.sig = some sid0 ∧ m.abortCallback = true) → m2 = m) := by
  intro m2 hm2
  obtain ⟨m, hm, rfl⟩ := List.mem_map.mp hm2
  refine ⟨m, hm, ?_⟩
  by_cases hc : m.sig = some sid0 ∧ m.abortCallback = true <;> simp [hc]

theorem abortMap_map_tid (tasks : List TaskMeta) (sid0 r : Nat) :
    (tasks.map (fun m =>
      if m.sig = some sid0 ∧ m.abortCallback then
        { m with
          delayHc := none
          abortCallback := false
          promise :=
            if m.promise = .pending then .rejected r else m.promise }
      else m)).map TaskMeta.tid = tasks.map TaskMeta.tid := by
  rw [List.map_map]
  refine List.map_congr_left ?_
  intro m _
  by_cases hc : m.sig = some sid0 ∧ m.abortCallback = true <;> simp [hc]

theorem abortMap_image (tasks : List TaskMeta) (sid0 r : Nat) :
    ∀ m ∈ tasks, ∃ m2 ∈ tasks.map (fun m =>
      if m.sig = some sid0 ∧ m.abortCallback then
        { m with
          delayHc := none
          abortCallback := false
          promise :=
            if m.promise = .pending then .rejected r else m.promise }
      else m), m2.tid = m.tid ∧ m2.sig = m.sig := by
  intro m hm
  refine ⟨_, List.mem_map.mpr ⟨m, hm, rfl⟩, ?_⟩
  by_cases hc : m.sig = some sid0 ∧ m.abortCallback = true <;> simp [hc]

theorem TInv_abort (sid0 r : Nat) {w : World} (h : TInv w) :
    TInv (abortSignalW w sid0 r) := by
  obtain ⟨t1, t2, t3, t4, t5, t6⟩ := h
  rcases hs : w.sigs[sid0]? with _ | s
  · simp only [abortSignalW, hs]
    exact ⟨t1, t2, t3, t4, t5, t6⟩
  · by_cases hab0 : s.aborted
    · simp only [abortSignalW, hs, hab0, if_true]
      exact ⟨t1, t2, t3, t4, t5, t6⟩
    · simp only [Bool.not_eq_true] at hab0
      simp only [abortSignalW, hs, hab0, Bool.false_eq_true, if_false]
      have hslen : sid0 < w.sigs.length :=
        (List.getElem?_eq_some_iff.mp hs).1
      have habw : sigAbortedW w sid0 = false := by
        rw [sigAbortedW_eq]
        simp only [sigAbortedL, hs]
        exact hab0
      have habN : sigAbortedL
          (w.sigs.set sid0 { s with aborted := true, reason := r }) sid0
          = true := by
        rw [sigAbortedL_set_self _ hslen]
      have hreN : sigReasonL
          (w.sigs.set sid0 { s with aborted := true, reason := r }) sid0
          = r := by
        rw [sigReasonL_set_self _ hslen]
      refine ⟨?_, ?_, ?_, ?_, ?_, ?_⟩
      · intro m2 hm2
        obtain ⟨m, hm, e1, -⟩ := abortMap_shape w.tasks sid0 r m2 hm2
        show m2.tid < w.nextTid
        rw [e1]
        exact t1 m hm
      · exact (abortMap_map_tid w.tasks sid0 r).symm ▸ t2
      · intro r2 hr2
        obtain ⟨m, hm, hmt, hms⟩ := t3 r2 hr2
        obtain ⟨m2, hm2, g1, g2⟩ := abortMap_image w.tasks sid0 r m hm
        exact ⟨m2, hm2, by rw [g1, hmt], by rw [g2, hms]⟩
      · intro m2 hm2 rec hrec
        obtain ⟨m, hm, e1, e2, e3, -⟩ := abortMap_shape w.tasks sid0 r m2 hm2
        rw [e3] at hrec
        obtain ⟨g1, g2⟩ := t4 m hm rec hrec
        exact ⟨by rw [e1, g1], by rw [e2, g2]⟩
      · intro m2 hm2 sid hsig hab hni
        obtain ⟨m, hm, e1, e2, -, e4, e5⟩ :=
          abortMap_shape w.tasks sid0 r m2 hm2
        by_cases hsid : sid = sid0
        · subst hsid
          have hmsig : m.sig = some sid := by
            rw [← e2]
            exact hsig
          have hmni : m.tid ∉ w.invoked := by
            rw [← e1]
            exact hni
          obtain ⟨hac, hpend⟩ := t6 m hm sid hmsig habw hmni
          have hp2 := e4 ⟨hmsig, hac⟩
          rw [hpend, if_pos rfl] at hp2
          rw [hp2]
          show PState.rejected r = PState.rejected (sigReasonW _ sid)
          rw [sigReasonW_eq]
          show PState.rejected r = PState.rejected (sigReasonL
            (w.sigs.set sid { s with aborted := true, reason := r }) sid)
          rw [hreN]
        · have hne : sid0 ≠ sid := fun hc => hsid hc.symm
          have hmsig : m.sig = some sid := by
            rw [← e2]
            exact hsig
          have hm2m : m2 = m := e5 (fun hc => by
            rw [hmsig] at hc
            exact hsid (Option.some.inj hc.1))
          have habOld : sigAbortedW w sid = true := by
            have hab2 : sigAbortedL
                (w.sigs.set sid0 { s with aborted := true, reason := r })
                sid = true := hab
            rw [sigAbortedL_set_ne _ hne] at hab2
            exact hab2
          have hmni : m.tid ∉ w.invoked := by
            rw [← e1]
            exact hni
          have := t5 m hm sid hmsig habOld hmni
          rw [hm2m, this]
          show PState.rejected (sigReasonW w sid) = PState.rejected
            (sigReasonL
              (w.sigs.set sid0 { s with aborted := true, reason := r }) sid)
          rw [sigReasonL_set_ne _ hne]
          rfl
      · intro m2 hm2 sid hsig hab hni
        obtain ⟨m, hm, e1, e2, -, -, e5⟩ :=
          abortMap_shape w.tasks sid0 r m2 hm2
        by_cases hsid : sid = sid0
        · subst hsid
          have habF : sigAbortedL
              (w.sigs.set sid { s with aborted := true, reason := r }) sid
              = false := hab
          rw [habN] at habF
          exact absurd habF (by decide)
        · have hne : sid0 ≠ sid := fun hc => hsid hc.symm
          have hmsig : m.sig = some sid := by
            rw [← e2]
            exact hsig
          have hm2m : m2 = m := e5 (fun hc => by
            rw [hmsig] at hc
            exact hsid (Option.some.inj hc.1))
          have habOld : sigAbortedW w sid = false := by
            have hab2 : sigAbortedL
                (w.sigs.set sid0 { s with aborted := true, reason := r })
                sid = false := hab
            rw [sigAbortedL_set_ne _ hne] at hab2
            exact hab2
          have hmni : m.tid ∉ w.invoked := by
            rw [← e1]
            exact hni
          obtain ⟨q1, q2⟩ := t6 m hm sid hmsig habOld hmni
          rw [hm2m]
          exact ⟨q1, q2⟩

theorem TInv_cancelMatch_entry (ia : Bool) (cbRes : Nat → Except Nat Nat)
    (w2 : World) (h2 : TInv w2) :
    TInv (schedulerEntryCallback ia cbRes
      (match w2.pendingHostCallback with
       | some ph =>
         { w2 with
           hcs := markCanceled w2.hcs ph,
           pendingHostCallback := none }
       | none => w2)) := by
  rcases hnp : w2.pendingHostCallback with _ | ph
  · exact TInv_entry ia cbRes h2
  · exact TInv_entry ia cbRes h2

theorem TInv_fire (ia : Bool) (cbRes : Nat → Except Nat Nat) (hid : Nat)
    {w : World} (h : TInv w) : TInv (fireHcW ia cbRes w hid) := by
  obtain ⟨t1, t2, t3, t4, t5, t6⟩ := h
  rcases hhc : hcOf w hid with _ | hc
  · simp only [fireHcW, hhc]
    exact ⟨t1, t2, t3, t4, t5, t6⟩
  · by_cases hcf : hc.canceled = true ∨ hc.fired = true
    · simp only [fireHcW, hhc, if_pos hcf]
      exact ⟨t1, t2, t3, t4, t5, t6⟩
    · by_cases hd : hc.isDelay = true
      · rcases hft : hc.forTask with _ | tid
        · simp only [fireHcW, hhc, if_neg hcf, if_pos hd, hft]
          exact ⟨t1, t2, t3, t4, t5, t6⟩
        · rcases hrec : (w.tasks.find? (fun m => m.tid == tid)).bind
              (fun m => m.pendingRecord) with _ | record
          · simp only [fireHcW, hhc, if_neg hcf, if_pos hd, hft, hrec]
            exact ⟨t1, t2, t3, t4, t5, t6⟩
          · have hfound : ∃ m0 ∈ w.tasks,
                m0.pendingRecord = some record := by
              rcases hf : w.tasks.find? (fun m => m.tid == tid) with _ | m0
              · rw [hf] at hrec
                cases hrec
              · rw [hf] at hrec
                exact ⟨m0, List.mem_of_find?_eq_some hf, hrec⟩
            obtain ⟨m0, hm0, hrec'⟩ := hfound
            obtain ⟨hrt, hrs⟩ := t4 m0 hm0 record hrec'
            have hclr_shape : ∀ m2 ∈ w.tasks.map (fun m =>
                if m.tid = tid then
                  { m with delayHc := none, pendingRecord := none }
                else m), ∃ m ∈ w.tasks,
                m2.tid = m.tid ∧ m2.sig = m.sig ∧
                m2.promise = m.promise ∧
                m2.abortCallback = m.abortCallback ∧
                (m2.pendingRecord = m.pendingRecord ∨
                  m2.pendingRecord = none) := by
              intro m2 hm2
              obtain ⟨m, hm, rfl⟩ := List.mem_map.mp hm2
              refine ⟨m, hm, ?_⟩
              by_cases h1 : m.tid = tid <;> simp [h1]
            have hclr_tid : (w.tasks.map (fun m =>
                if m.tid = tid then
                  { m with delayHc := none, pendingRecord := none }
                else m)).map TaskMeta.tid = w.tasks.map TaskMeta.tid := by
              rw [List.map_map]
              refine List.map_congr_left ?_
              intro m _
              by_cases h1 : m.tid = tid <;> simp [h1]
            have hclr_image : ∀ m ∈ w.tasks, ∃ m2 ∈ w.tasks.map (fun m =>
                if m.tid = tid then
                  { m with delayHc := none, pendingRecord := none }
                else m), m2.tid = m.tid ∧ m2.sig = m.sig := by
              intro m hm
              refine ⟨_, List.mem_map.mpr ⟨m, hm, rfl⟩, ?_⟩
              by_cases h1 : m.tid = tid <;> simp [h1]
            have hmid : TInv { w with
                hcs := markFired w.hcs hid,
                tasks := w.tasks.map (fun m =>
                  if m.tid = tid then
                    { m with delayHc := none, pendingRecord := none }
                  else m) } := by
              refine ⟨?_, ?_, ?_, ?_, ?_, ?_⟩
              · intro m2 hm2
                obtain ⟨m, hm, e1, -⟩ := hclr_shape m2 hm2
                show m2.tid < w.nextTid
                rw [e1]
                exact t1 m hm
              · exact hclr_tid.symm ▸ t2
              · intro r hr
                obtain ⟨m, hm, hmt, hms⟩ := t3 r hr
                obtain ⟨m2, hm2, g1, g2⟩ := hclr_image m hm
                exact ⟨m2, hm2, by rw [g1, hmt], by rw [g2, hms]⟩
              · intro m2 hm2 rec2 hrec2
                obtain ⟨m, hm, e1, e2, -, -, e5⟩ := hclr_shape m2 hm2
                rcases e5 with e5 | e5
                · rw [e5] at hrec2
                  obtain ⟨g1, g2⟩ := t4 m hm rec2 hrec2
                  exact ⟨by rw [e1, g1], by rw [e2, g2]⟩
                · rw [e5] at hrec2
                  cases hrec2
              · intro m2 hm2 sid hsig hab hni
                obtain ⟨m, hm, e1, e2, e3, -⟩ := hclr_shape m2 hm2
                have hmp := t5 m hm sid (by rw [← e2]; exact hsig) hab
                  (by rw [← e1]; exact hni)
                show m2.promise = _
                rw [e3, hmp]
                rfl
              · intro m2 hm2 sid hsig hab hni
                obtain ⟨m, hm, e1, e2, e3, e4, -⟩ := hclr_shape m2 hm2
                obtain ⟨q1, q2⟩ := t6 m hm sid (by rw [← e2]; exact hsig)
                  hab (by rw [← e1]; exact hni)
                exact ⟨by rw [e4, q1], by rw [e3, q2]⟩
            have hpush : TInv (pushTaskW { w with
                hcs := markFired w.hcs hid,
                tasks := w.tasks.map (fun m =>
                  if m.tid = tid then
                    { m with delayHc := none, pendingRecord := none }
                  else m) } record) := by
              apply TInv_pushTaskW hmid
              obtain ⟨m2, hm2, g1, g2⟩ := hclr_image m0 hm0
              exact ⟨m2, hm2, by rw [g1, hrt], by rw [g2, hrs]⟩
            simp only [fireHcW, hhc, if_neg hcf, if_pos hd, hft, hrec]
            exact TInv_cancelMatch_entry ia cbRes _ hpush
      · simp only [fireHcW, hhc, if_neg hcf, if_neg hd]
        exact TInv_entry ia cbRes
          (show TInv { w with hcs := markFired w.hcs hid } from
            ⟨t1, t2, t3, t4, t5, t6⟩)

theorem TInv_step (ia : Bool) (cbRes : Nat → Except Nat Nat) (op : Op)
    {w : World} (h : TInv w) : TInv (stepW ia cbRes w op) := by
  cases op with
  | submit cb sig prio delay isCont =>
    exact TInv_submit ia cb sig prio delay isCont h
  | abort sid r => exact TInv_abort sid r h
  | fire hid => exact TInv_fire ia cbRes hid h

theorem TInv_init (sigs : List SigState) : TInv (initW sigs) := by
  refine ⟨?_, ?_, ?_, ?_, ?_, ?_⟩
  · intro m hm
    cases hm
  · exact List.nodup_nil
  · intro r hr
    cases hr
  · intro m hm
    cases hm
  · intro m hm
    cases hm
  · intro m hm
    cases hm

theorem TInv_run_gen (ia : Bool) (cbRes : Nat → Except Nat Nat) :
    ∀ (ops : List Op) (w : World), TInv w →
    TInv (runW ia cbRes w ops) := by
  intro ops
  induction ops with
  | nil => exact fun w hw => hw
  | cons op rest ih =>
    intro w hw
    exact ih _ (TInv_step ia cbRes op hw)

/-- The observation that claim C2 tracks about one task: it is registered
with the given id on the given signal, the signal has aborted, and the
task's callback has not been invoked. -/
def NotInv (w : World) (sid tidv : Nat) : Prop :=
  (∃ m ∈ w.tasks, m.tid = tidv ∧ m.sig = some sid) ∧
  sigAbortedW w sid = true ∧
  tidv ∉ w.invoked

theorem NotInv_runNextTaskW (cbRes : Nat → Except Nat Nat)
    {w : World} {sid tidv : Nat} (hT : TInv w) (hN : NotInv w sid tidv) :
    NotInv (runNextTaskW cbRes w) sid tidv := by
  obtain ⟨⟨m, hm, hmt, hms⟩, hab, hni⟩ := hN
  rcases hrun : runNextTaskF (abW w) (totalLen w.queues + 1) w.queues
    with ⟨o, qs'⟩
  rcases o with _ | t
  · simp only [runNextTaskW, hrun]
    exact ⟨⟨m, hm, hmt, hms⟩, hab, hni⟩
  · obtain ⟨htmem, htab⟩ := runNextTaskF_sound (abW w) _ _ _ _ hrun
    have htne : t.tid ≠ tidv := by
      intro he
      obtain ⟨m', hm', hm't, hm's⟩ := hT.2.2.1 t htmem
      have hmm : m' = m := by
        apply List.inj_on_of_nodup_map hT.2.1 hm' hm
        rw [hm't, he, hmt]
      have htsig : t.sig = some sid := by
        rw [← hm's, hmm, hms]
      have : abW w t = true := by
        show (match t.sig with
          | some sid2 => sigAbortedW w sid2
          | none => false) = true
        rw [htsig]
        exact hab
      rw [this] at htab
      exact absurd htab (by decide)
    have key : ∀ st : PState, NotInv { w with
        queues := qs',
        tasks := detachListener (settleTask w.tasks t.tid st) t.tid,
        invoked := w.invoked ++ [t.tid] } sid tidv := by
      intro st
      refine ⟨?_, hab, ?_⟩
      · obtain ⟨m1, hm1, g1, g2⟩ := settleTask_image w.tasks t.tid st m hm
        obtain ⟨m2, hm2, g3, g4⟩ := detachListener_image _ t.tid m1 hm1
        exact ⟨m2, hm2, by rw [g3, g1, hmt], by rw [g4, g2, hms]⟩
      · intro hcon
        rcases List.mem_append.mp hcon with hcon | hcon
        · exact hni hcon
        · exact htne (List.mem_singleton.mp hcon).symm
    rcases hcb : cbRes t.cb with v | e <;>
      simp only [runNextTaskW, hrun, hcb] <;> exact key _

theorem NotInv_shcin (ia : Bool) {w : World} {sid tidv : Nat}
    (hN : NotInv w sid tidv) :
    NotInv (scheduleHostCallbackIfNeeded ia w) sid tidv := by
  rcases hnp : nextTaskPriority w.queues with _ | ⟨p, k⟩
  · simp only [scheduleHostCallbackIfNeeded, hnp]
    exact hN
  · rcases hslot : w.pendingHostCallback with _ | hid
    · simp only [scheduleHostCallbackIfNeeded, hnp, hslot]
      exact hN
    · by_cases hidle : p ≠ TaskPriority.background ∧ isIdleHcW w hid
      · simp only [scheduleHostCallbackIfNeeded, hnp, hslot, if_pos hidle]
        exact hN
      · simp only [scheduleHostCallbackIfNeeded, hnp, hslot, if_neg hidle]
        exact hN

theorem NotInv_entry (ia : Bool) (cbRes : Nat → Except Nat Nat)
    {w : World} {sid tidv : Nat} (hT : TInv w) (hN : NotInv w sid tidv) :
    NotInv (schedulerEntryCallback ia cbRes w) sid tidv := by
  have hT0 : TInv { w with pendingHostCallback := none } := hT
  have hN0 : NotInv { w with pendingHostCallback := none } sid tidv := hN
  exact NotInv_shcin ia (NotInv_runNextTaskW cbRes hT0 hN0)

theorem NotInv_cancelMatch_entry (ia : Bool) (cbRes : Nat → Except Nat Nat)
    (w2 : World) {sid tidv : Nat} (hT2 : TInv w2)
    (hN2 : NotInv w2 sid tidv) :
    NotInv (schedulerEntryCallback ia cbRes
      (match w2.pendingHostCallback with
       | some ph =>
         { w2 with
           hcs := markCanceled w2.hcs ph,
           pendingHostCallback := none }
       | none => w2)) sid tidv := by
  rcases hnp : w2.pendingHostCallback with _ | ph
  · exact NotInv_entry ia cbRes hT2 hN2
  · exact NotInv_entry ia cbRes hT2 hN2

theorem NotInv_pushTaskW {w : World} {t : SchedulerTask} {sid tidv : Nat}
    (hN : NotInv w sid tidv) : NotInv (pushTaskW w t) sid tidv := hN

theorem NotInv_submit (ia : Bool) (cb : Nat) (sigArg : Option Nat)
    (prioArg : Option TaskPriority) (delay : Nat) (isCont : Bool)
    {w : World} {sid tidv : Nat} (hN : NotInv w sid tidv) :
    NotInv (submitW ia w cb sigArg prioArg delay isCont) sid tidv := by
  obtain ⟨⟨m, hm, hmt, hms⟩, hab, hni⟩ := hN
  rcases sigArg with _ | sid0
  · simp only [submitW]
    by_cases hdel : 0 < delay
    · simp only [if_pos hdel]
      exact ⟨⟨m, List.mem_append_left _ hm, hmt, hms⟩, hab, hni⟩
    · simp only [if_neg hdel]
      apply NotInv_shcin
      apply NotInv_pushTaskW
      exact ⟨⟨m, List.mem_append_left _ hm, hmt, hms⟩, hab, hni⟩
  · by_cases habort : sigAbortedW w sid0 = true
    · simp only [submitW, habort, if_true]
      exact ⟨⟨m, List.mem_append_left _ hm, hmt, hms⟩, hab, hni⟩
    · simp only [submitW, habort, Bool.false_eq_true, if_false]
      by_cases hdel : 0 < delay
      · simp only [if_pos hdel]
        exact ⟨⟨m, List.mem_append_left _ hm, hmt, hms⟩, hab, hni⟩
      · simp only [if_neg hdel]
        apply NotInv_shcin
        apply NotInv_pushTaskW
        exact ⟨⟨m, List.mem_append_left _ hm, hmt, hms⟩, hab, hni⟩

theorem NotInv_abort (sid0 r : Nat) {w : World} {sid tidv : Nat}
    (hN : NotInv w sid tidv) : NotInv (abortSignalW w sid0 r) sid tidv := by
  obtain ⟨⟨m, hm, hmt, hms⟩, hab, hni⟩ := hN
  rcases hs : w.sigs[sid0]? with _ | s
  · simp only [abortSignalW, hs]
    exact ⟨⟨m, hm, hmt, hms⟩, hab, hni⟩
  · by_cases hab0 : s.aborted
    · simp only [abortSignalW, hs, hab0, if_true]
      exact ⟨⟨m, hm, hmt, hms⟩, hab, hni⟩
    · simp only [Bool.not_eq_true] at hab0
      simp only [abortSignalW, hs, hab0, Bool.false_eq_true, if_false]
      have hslen : sid0 < w.sigs.length :=
        (List.getElem?_eq_some_iff.mp hs).1
      refine ⟨?_, ?_, hni⟩
      · obtain ⟨m2, hm2, g1, g2⟩ := abortMap_image w.tasks sid0 r m hm
        exact ⟨m2, hm2, by rw [g1, hmt], by rw [g2, hms]⟩
      · by_cases hsid : sid0 = sid
        · subst hsid
          show sigAbortedL
            (w.sigs.set sid0 { s with aborted := true, reason := r }) sid0
            = true
          rw [sigAbortedL_set_self _ hslen]
        · show sigAbortedL
            (w.sigs.set sid0 { s with aborted := true, reason := r }) sid
            = true
          rw [sigAbortedL_set_ne _ hsid]
          exact hab

theorem NotInv_fire (ia : Bool) (cbRes : Nat → Except Nat Nat) (hid : Nat)
    {w : World} {sid tidv : Nat} (hT : TInv w) (hN : NotInv w sid tidv) :
    NotInv (fireHcW ia cbRes w hid) sid tidv := by
  obtain ⟨t1, t2, t3, t4, t5, t6⟩ := hT
  obtain ⟨⟨m, hm, hmt, hms⟩, hab, hni⟩ := hN
  rcases hhc : hcOf w hid with _ | hc
  · simp only [fireHcW, hhc]
    exact ⟨⟨m, hm, hmt, hms⟩, hab, hni⟩
  · by_cases hcf : hc.canceled = true ∨ hc.fired = true
    · simp only [fireHcW, hhc, if_pos hcf]
      exact ⟨⟨m, hm, hmt, hms⟩, hab, hni⟩
    · by_cases hd : hc.isDelay = true
      · rcases hft : hc.forTask with _ | tid
        · simp only [fireHcW, hhc, if_neg hcf, if_pos hd, hft]
          exact ⟨⟨m, hm, hmt, hms⟩, hab, hni⟩
        · rcases hrec : (w.tasks.find? (fun m => m.tid == tid)).bind
              (fun m => m.pendingRecord) with _ | record
          · simp only [fireHcW, hhc, if_neg hcf, if_pos hd, hft, hrec]
            exact ⟨⟨m, hm, hmt, hms⟩, hab, hni⟩
          · have hfound : ∃ m0 ∈ w.tasks,
                m0.pendingRecord = some record := by
              rcases hf : w.tasks.find? (fun m => m.tid == tid) with _ | m0
              · rw [hf] at hrec
                cases hrec
              · rw [hf] at hrec
                exact ⟨m0, List.mem_of_find?_eq_some hf, hrec⟩
            obtain ⟨m0, hm0, hrec'⟩ := hfound
            obtain ⟨hrt, hrs⟩ := t4 m0 hm0 record hrec'
            have hclr_shape : ∀ m2 ∈ w.tasks.map (fun m =>
                if m.tid = tid then
                  { m with delayHc := none, pendingRecord := none }
                else m), ∃ m ∈ w.tasks,
                m2.tid = m.tid ∧ m2.sig = m.sig ∧
                m2.promise = m.promise ∧
                m2.abortCallback = m.abortCallback ∧
                (m2.pendingRecord = m.pendingRecord ∨
                  m2.pendingRecord = none) := by
              intro m2 hm2
              obtain ⟨m3, hm3, rfl⟩ := List.mem_map.mp hm2
              refine ⟨m3, hm3, ?_⟩
              by_cases h1 : m3.tid = tid <;> simp [h1]
            have hclr_tid : (w.tasks.map (fun m =>
                if m.tid = tid then
                  { m with delayHc := none, pendingRecord := none }
                else m)).map TaskMeta.tid = w.tasks.map TaskMeta.tid := by
              rw [List.map_map]
              refine List.map_congr_left ?_
              intro m3 _
              by_cases h1 : m3.tid = tid <;> simp [h1]
            have hclr_image : ∀ m3 ∈ w.tasks, ∃ m2 ∈ w.tasks.map (fun m =>
                if m.tid = tid then
                  { m with delayHc := none, pendingRecord := none }
                else m), m2.tid = m3.tid ∧ m2.sig = m3.sig := by
              intro m3 hm3
              refine ⟨_, List.mem_map.mpr ⟨m3, hm3, rfl⟩, ?_⟩
              by_cases h1 : m3.tid = tid <;> simp [h1]
            have hmid : TInv { w with
                hcs := markFired w.hcs hid,
                tasks := w.tasks.map (fun m =>
                  if m.tid = tid then
                    { m with delayHc := none, pendingRecord := none }
                  else m) } := by
              refine ⟨?_, ?_, ?_, ?_, ?_, ?_⟩
              · intro m2 hm2
                obtain ⟨m3, hm3, e1, -⟩ := hclr_shape m2 hm2
                show m2.tid < w.nextTid
                rw [e1]
                exact t1 m3 hm3
              · exact hclr_tid.symm ▸ t2
              · intro r hr
                obtain ⟨m3, hm3, hmt3, hms3⟩ := t3 r hr
                obtain ⟨m2, hm2, g1, g2⟩ := hclr_image m3 hm3
                exact ⟨m2, hm2, by rw [g1, hmt3], by rw [g2, hms3]⟩
              · intro m2 hm2 rec2 hrec2
                obtain ⟨m3, hm3, e1, e2, -, -, e5⟩ := hclr_shape m2 hm2
                rcases e5 with e5 | e5
                · rw [e5] at hrec2
                  obtain ⟨g1, g2⟩ := t4 m3 hm3 rec2 hrec2
                  exact ⟨by rw [e1, g1], by rw [e2, g2]⟩
                · rw [e5] at hrec2
                  cases hrec2
              · intro m2 hm2 sid2 hsig hab2 hni2
                obtain ⟨m3, hm3, e1, e2, e3, -⟩ := hclr_shape m2 hm2
                have hmp := t5 m3 hm3 sid2 (by rw [← e2]; exact hsig) hab2
                  (by rw [← e1]; exact hni2)
                show m2.promise = _
                rw [e3, hmp]
                rfl
              · intro m2 hm2 sid2 hsig hab2 hni2
                obtain ⟨m3, hm3, e1, e2, e3, e4, -⟩ := hclr_shape m2 hm2
                obtain ⟨q1, q2⟩ := t6 m3 hm3 sid2 (by rw [← e2]; exact hsig)
                  hab2 (by rw [← e1]; exact hni2)
                exact ⟨by rw [e4, q1], by rw [e3, q2]⟩
            have hpush : TInv (pushTaskW { w with
                hcs := markFired w.hcs hid,
                tasks := w.tasks.map (fun m =>
                  if m.tid = tid then
                    { m with delayHc := none, pendingRecord := none }
                  else m) } record) := by
              apply TInv_pushTaskW hmid
              obtain ⟨m2, hm2, g1, g2⟩ := hclr_image m0 hm0
              exact ⟨m2, hm2, by rw [g1, hrt], by rw [g2, hrs]⟩
            have hNpush : NotInv (pushTaskW { w with
                hcs := markFired w.hcs hid,
                tasks := w.tasks.map (fun m =>
                  if m.tid = tid then
                    { m with delayHc := none, pendingRecord := none }
                  else m) } record) sid tidv := by
              apply NotInv_pushTaskW
              refine ⟨?_, hab, hni⟩
              obtain ⟨m2, hm2, g1, g2⟩ := hclr_image m hm
              exact ⟨m2, hm2, by rw [g1, hmt], by rw [g2, hms]⟩
            simp only [fireHcW, hhc, if_neg hcf, if_pos hd, hft, hrec]
            exact NotInv_cancelMatch_entry ia cbRes _ hpush hNpush
      · simp only [fireHcW, hhc, if_neg hcf, if_neg hd]
        refine NotInv_entry ia cbRes
          (show TInv { w with hcs := markFired w.hcs hid } from
            ⟨t1, t2, t3, t4, t5, t6⟩) ?_
        exact ⟨⟨m, hm, hmt, hms⟩, hab, hni⟩

theorem NotInv_step (ia : Bool) (cbRes : Nat → Except Nat Nat) (op : Op)
    {w : World} {sid tidv : Nat} (hT : TInv w) (hN : NotInv w sid tidv) :
    NotInv (stepW ia cbRes w op) sid tidv := by
  cases op with
  | submit cb sig prio delay isCont =>
    exact NotInv_submit ia cb sig prio delay isCont hN
  | abort sid0 r => exact NotInv_abort sid0 r hN
  | fire hid => exact NotInv_fire ia cbRes hid hT hN

theorem NotInv_run_gen (ia : Bool) (cbRes : Nat → Except Nat Nat)
    {sid tidv : Nat} :
    ∀ (ops : List Op) (w : World), TInv w → NotInv w sid tidv →
    NotInv (runW ia cbRes w ops) sid tidv := by
  intro ops
  induction ops with
  | nil => exact fun w _ hN => hN
  | cons op rest ih =>
    intro w hT hN
    exact ih _ (TInv_step ia cbRes op hT) (NotInv_step ia cbRes op hT hN)

/-- **C2**: in any interleaving of submissions, aborts and host-callback
firings from a fresh scheduler, a task whose signal has aborted while the
task was not yet dispatched has its promise rejected with exactly the
signal's reason, and its callback is never invoked, whatever operations
follow. -/
theorem aborted_task_rejects_and_never_runs (ia : Bool)
    (cbRes : Nat → Except Nat Nat) (sigs : List SigState) (ops : List Op)
    (m : TaskMeta) (sid : Nat)
    (hm : m ∈ (runW ia cbRes (initW sigs) ops).tasks)
    (hsig : m.sig = some sid)
    (hab : sigAbortedW (runW ia cbRes (initW sigs) ops) sid = true)
    (hni : m.tid ∉ (runW ia cbRes (initW sigs) ops).invoked) :
    m.promise = PState.rejected
      (sigReasonW (runW ia cbRes (initW sigs) ops) sid) ∧
    ∀ ops2 : List Op, m.tid ∉
      (runW ia cbRes (runW ia cbRes (initW sigs) ops) ops2).invoked := by
  have hT : TInv (runW ia cbRes (initW sigs) ops) :=
    TInv_run_gen ia cbRes ops _ (TInv_init sigs)
  refine ⟨hT.2.2.2.2.1 m hm sid hsig hab hni, ?_⟩
  intro ops2
  have hN : NotInv (runW ia cbRes (initW sigs) ops) sid m.tid :=
    ⟨⟨m, hm, rfl, hsig⟩, hab, hni⟩
  exact (NotInv_run_gen ia cbRes ops2 _ hT hN).2.2

/-- The world of the C2 witness scenario: one signal, one task submitted
on it, then the signal aborts with reason 5 before any dispatch. -/
def c2W : World :=
  runW false (fun n => Except.ok n) (initW [⟨false, 0, none⟩])
    [Op.submit 7 (some 0) none 0 false, Op.abort 0 5]

/-- The bookkeeping record of the C2 witness task after the abort. -/
def c2M : TaskMeta := ⟨0, some 0, PState.rejected 5, false, none, none⟩

theorem aborted_task_rejects_and_never_runs_witness :
    c2M ∈ c2W.tasks ∧ c2M.sig = some 0 ∧
    sigAbortedW c2W 0 = true ∧ c2M.tid ∉ c2W.invoked ∧
    c2M.promise = PState.rejected (sigReasonW c2W 0) ∧
    c2M.tid ∉ (runW false (fun n => Except.ok n) c2W [Op.fire 0]).invoked :=
  ⟨by decide, by decide, by decide, by decide,
    (aborted_task_rejects_and_never_runs false (fun n => Except.ok n)
      [⟨false, 0, none⟩] [Op.submit 7 (some 0) none 0 false, Op.abort 0 5]
      c2M 0 (by decide) (by decide) (by decide) (by decide)).1,
    (aborted_task_rejects_and_never_runs false (fun n => Except.ok n)
      [⟨false, 0, none⟩] [Op.submit 7 (some 0) none 0 false, Op.abort 0 5]
      c2M 0 (by decide) (by decide) (by decide) (by decide)).2 [Op.fire 0]⟩
